import Mathlib

/-!
Verification of `src/check_duplicates.py` (vocabulary deduplication script).

The script loads a JSON document, scans its `"entries"` list, keeps the first
occurrence of each case-insensitively-compared `"original"` value, and writes a
new document.  We embed the data model and the algorithm shallowly:

* JSON values are modelled by `CheckDup.JVal` (numbers as `Int`: the script's
  data carries strings; floating point is outside the model).
* Python `dict`s are modelled as insertion-ordered association lists
  (`List (String × JVal)`), the semantics of a `dict` with unique keys.
* Python's `set` of strings is modelled as a `List String` used only through
  membership (`CheckDup.memb`); the loop inserts a key only when absent, so the
  list is duplicate-free and behaves exactly as the set.
* `str.lower` is modelled by `CheckDup.lowerStr` (the data in scope is ASCII; the
  proofs use no property of the fold beyond it being a function of the string).
* Exceptions are modelled by `Except CheckDup.PyErr`; text by `List Char`.
-/

namespace CheckDup

/-- JSON-like values as produced by `json.load`. -/
inductive JVal : Type where
  | null : JVal
  | bool : Bool → JVal
  | num : Int → JVal
  | str : String → JVal
  | arr : List JVal → JVal
  | obj : List (String × JVal) → JVal

/-- Python dict lookup on an association list (first match). -/
def olookup (k : String) : List (String × JVal) → Option JVal
  | [] => none
  | (k', v) :: rest => if k' = k then some v else olookup k rest

/-- The exceptions the script can raise, carrying what Python's exception
carries: `KeyError` the missing key, `AttributeError` the missing attribute,
`TypeError` a message; `decodeError` stands for `json.JSONDecodeError`. -/
inductive PyErr : Type where
  | keyError : String → PyErr
  | attributeError : String → PyErr
  | typeError : String → PyErr
  | decodeError : PyErr
deriving DecidableEq

/-- `entry["original"]` followed by the `.lower()`-ability check (line 55 of the
source): a non-dict entry raises `TypeError`, a missing key `KeyError`, a
non-string value `AttributeError` at `.lower()`. Returns the raw string. -/
def getOriginal : JVal → Except PyErr String
  | .obj fields =>
    match olookup "original" fields with
    | none => .error (.keyError "original")
    | some (.str s) => .ok s
    | some _ => .error (.attributeError "lower")
  | _ => .error (.typeError "entry is not a mapping")

/-- Python's `str.lower`, modelled character-wise (the chars of this data are
ASCII, where `Char.toLower` agrees with Python's case folding). -/
def lowerStr (s : String) : String := String.mk (s.data.map Char.toLower)

/-- The raw `"original"` string of an entry (defaulting to `""` where the code
would raise; used only under well-formedness hypotheses or after folding). -/
def originalOf (e : JVal) : String :=
  match getOriginal e with
  | .ok s => s
  | .error _ => ""

/-- The dedup key: the case-folded (lowercased) `"original"` value (line 56). -/
def foldOf (e : JVal) : String := lowerStr (originalOf e)

/-- An entry on which line 55-56 of the source would not raise. -/
def entryOk (e : JVal) : Bool :=
  match getOriginal e with
  | .ok _ => true
  | .error _ => false

/-- Membership test of the `processed_words` set. -/
def memb (k : String) : List String → Bool
  | [] => false
  | x :: xs => (x = k) || memb k xs

/-- The loop state of lines 45-51: `processed_words`, `unique_entries`,
`duplicates`. -/
structure DedupState : Type where
  processed_words : List String
  unique_entries : List JVal
  duplicates : List String

def initState : DedupState := ⟨[], [], []⟩

/-- One iteration of the loop body, lines 54-65 of the source. -/
def step (s : DedupState) (e : JVal) : Except PyErr DedupState :=
  match getOriginal e with
  | .error err => .error err
  | .ok w =>
    let wl := lowerStr w
    if memb wl s.processed_words then
      .ok { s with duplicates := s.duplicates ++ [w] }
    else
      .ok { s with unique_entries := s.unique_entries ++ [e],
                   processed_words := s.processed_words ++ [wl] }

/-- The whole `for entry in entries` loop, lines 54-65. -/
def processEntries (s : DedupState) : List JVal → Except PyErr DedupState
  | [] => .ok s
  | e :: rest =>
    match step s e with
    | .error err => .error err
    | .ok s' => processEntries s' rest

/-- The pure core of `check_duplicates`: from the entry list to
`(unique_entries, duplicates)`. -/
def dedupCore (entries : List JVal) : Except PyErr (List JVal × List String) :=
  match processEntries initState entries with
  | .error err => .error err
  | .ok s => .ok (s.unique_entries, s.duplicates)

/-- Closed form of the retained entries starting from a given seen set. -/
def keptFrom (seen : List String) : List JVal → List JVal
  | [] => []
  | e :: rest =>
    if memb (foldOf e) seen then keptFrom seen rest
    else e :: keptFrom (seen ++ [foldOf e]) rest

/-- Closed form of the recorded duplicates starting from a given seen set. -/
def dupsFrom (seen : List String) : List JVal → List String
  | [] => []
  | e :: rest =>
    if memb (foldOf e) seen then originalOf e :: dupsFrom seen rest
    else dupsFrom (seen ++ [foldOf e]) rest

theorem originalOf_eq {e : JVal} {w : String} (h : getOriginal e = .ok w) :
    originalOf e = w := by
  simp [originalOf, h]

theorem entryOk_iff {e : JVal} : entryOk e = true ↔ ∃ w, getOriginal e = .ok w := by
  unfold entryOk
  cases h : getOriginal e <;> simp

theorem memb_append (k : String) (a b : List String) :
    memb k (a ++ b) = (memb k a || memb k b) := by
  induction a with
  | nil => simp [memb]
  | cons x xs ih => simp [memb, ih, Bool.or_assoc]

theorem memb_iff_mem (k : String) (l : List String) : memb k l = true ↔ k ∈ l := by
  induction l with
  | nil => simp [memb]
  | cons x xs ih =>
    simp only [memb, Bool.or_eq_true, decide_eq_true_eq, List.mem_cons, ih]
    constructor
    · rintro (h | h)
      · exact Or.inl h.symm
      · exact Or.inr h
    · rintro (h | h)
      · exact Or.inl h.symm
      · exact Or.inr h

/-- The loop equals its closed form: starting from any state whose entries are
all well-formed, it succeeds, the seen set grows by the folded keys of the kept
entries, the kept entries and the duplicates are appended. -/
theorem processEntries_eq (l : List JVal) : ∀ seen us ds,
    (∀ e ∈ l, entryOk e = true) →
    processEntries ⟨seen, us, ds⟩ l =
      .ok ⟨seen ++ (keptFrom seen l).map foldOf, us ++ keptFrom seen l,
           ds ++ dupsFrom seen l⟩ := by
  induction l with
  | nil => intro seen us ds _; simp [processEntries, keptFrom, dupsFrom]
  | cons e rest ih =>
    intro seen us ds hwf
    have he : entryOk e = true := hwf e (List.mem_cons_self e rest)
    obtain ⟨w, hw⟩ := entryOk_iff.mp he
    have horig : originalOf e = w := originalOf_eq hw
    have hfold : foldOf e = lowerStr w := by rw [foldOf, horig]
    have hrest : ∀ x ∈ rest, entryOk x = true := fun x hx => hwf x (List.mem_cons_of_mem e hx)
    by_cases hm : memb (lowerStr w) seen = true
    · have hstep : step ⟨seen, us, ds⟩ e = .ok ⟨seen, us, ds ++ [w]⟩ := by
        simp [step, hw, hm]
      have hunf : processEntries ⟨seen, us, ds⟩ (e :: rest) =
          processEntries ⟨seen, us, ds ++ [w]⟩ rest := by
        rw [processEntries, hstep]
      rw [hunf, ih seen us (ds ++ [w]) hrest]
      simp [keptFrom, dupsFrom, hfold, hm, horig]
    · have hstep : step ⟨seen, us, ds⟩ e =
          .ok ⟨seen ++ [lowerStr w], us ++ [e], ds⟩ := by
        simp only [step, hw]
        rw [if_neg (by simp [hm])]
      have hunf : processEntries ⟨seen, us, ds⟩ (e :: rest) =
          processEntries ⟨seen ++ [lowerStr w], us ++ [e], ds⟩ rest := by
        rw [processEntries, hstep]
      rw [hunf, ih (seen ++ [lowerStr w]) (us ++ [e]) ds hrest]
      simp [keptFrom, dupsFrom, hfold, hm]

/-- The success case of the core, in closed form. -/
theorem dedupCore_eq (entries : List JVal)
    (hwf : ∀ e ∈ entries, entryOk e = true) :
    dedupCore entries = .ok (keptFrom [] entries, dupsFrom [] entries) := by
  rw [dedupCore, initState, processEntries_eq entries [] [] [] hwf]
  simp

theorem dedupCore_ok_elim {entries uniq dups}
    (hwf : ∀ e ∈ entries, entryOk e = true)
    (h : dedupCore entries = .ok (uniq, dups)) :
    uniq = keptFrom [] entries ∧ dups = dupsFrom [] entries := by
  rw [dedupCore_eq entries hwf] at h
  have hp := Except.ok.inj h
  exact ⟨(congrArg Prod.fst hp).symm, (congrArg Prod.snd hp).symm⟩

theorem memb_singleton (k x : String) : memb k [x] = decide (x = k) := by
  simp [memb]

theorem find?_cons_true {α : Type} (p : α → Bool) (a : α) (l : List α)
    (h : p a = true) : (a :: l).find? p = some a := by
  simp [List.find?_cons, h]

theorem find?_cons_false {α : Type} (p : α → Bool) (a : α) (l : List α)
    (h : p a = false) : (a :: l).find? p = l.find? p := by
  simp [List.find?_cons, h]

theorem filter_cons_true {α : Type} (p : α → Bool) (a : α) (l : List α)
    (h : p a = true) : (a :: l).filter p = a :: l.filter p := by
  simp [List.filter_cons, h]

theorem filter_cons_false {α : Type} (p : α → Bool) (a : α) (l : List α)
    (h : p a = false) : (a :: l).filter p = l.filter p := by
  simp [List.filter_cons, h]

theorem keptFrom_sublist : ∀ (l : List JVal) (seen : List String),
    List.Sublist (keptFrom seen l) l := by
  intro l
  induction l with
  | nil => intro seen; simp [keptFrom]
  | cons e rest ih =>
    intro seen
    rw [keptFrom]
    by_cases hm : memb (foldOf e) seen = true
    · rw [if_pos hm]; exact (ih seen).cons e
    · rw [if_neg hm]; exact (ih (seen ++ [foldOf e])).cons₂ e

/-- Entries retained from a given seen set never bear a key of that set. -/
theorem keptFrom_avoids : ∀ (l : List JVal) (seen : List String) (k : String),
    memb k seen = true → ∀ e ∈ keptFrom seen l, foldOf e ≠ k := by
  intro l
  induction l with
  | nil => intro seen k _ e he; simp [keptFrom] at he
  | cons a rest ih =>
    intro seen k hk e he
    rw [keptFrom] at he
    by_cases hm : memb (foldOf a) seen = true
    · rw [if_pos hm] at he; exact ih seen k hk e he
    · rw [if_neg hm] at he
      rcases List.mem_cons.mp he with h | h
      · subst h
        intro hak
        rw [hak] at hm
        exact hm hk
      · exact ih (seen ++ [foldOf a]) k (by simp [memb_append, hk]) e h

/-- The retained entries have pairwise distinct folded keys. -/
theorem keptFrom_pairwise : ∀ (l : List JVal) (seen : List String),
    (keptFrom seen l).Pairwise (fun a b => foldOf a ≠ foldOf b) := by
  intro l
  induction l with
  | nil => intro seen; simp [keptFrom]
  | cons e rest ih =>
    intro seen
    rw [keptFrom]
    by_cases hm : memb (foldOf e) seen = true
    · rw [if_pos hm]; exact ih seen
    · rw [if_neg hm]
      refine List.Pairwise.cons ?_ (ih (seen ++ [foldOf e]))
      intro b hb
      have : memb (foldOf e) (seen ++ [foldOf e]) = true := by
        simp [memb_append, memb_singleton]
      exact fun hbe => (keptFrom_avoids rest (seen ++ [foldOf e]) (foldOf e) this b hb) hbe.symm

/-- First-occurrence characterization: filtering the retained entries at a key
yields exactly the first input entry bearing that key (if the key is new). -/
theorem keptFrom_filter (k : String) : ∀ (l : List JVal) (seen : List String),
    (keptFrom seen l).filter (fun e => foldOf e == k) =
      if memb k seen = true then [] else (l.find? (fun e => foldOf e == k)).toList := by
  intro l
  induction l with
  | nil =>
    intro seen
    by_cases h : memb k seen = true <;> simp [keptFrom, h]
  | cons e rest ih =>
    intro seen
    rw [keptFrom]
    by_cases hm : memb (foldOf e) seen = true
    · rw [if_pos hm, ih seen]
      by_cases hk : memb k seen = true
      · simp [hk]
      · have hne : (foldOf e == k) = false := by
          simp only [beq_eq_false_iff_ne, ne_eq]
          intro hkk
          rw [hkk] at hm
          exact hk hm
        rw [if_neg hk, if_neg hk, find?_cons_false (fun e => foldOf e == k) e rest hne]
    · rw [if_neg hm]
      by_cases hek : foldOf e = k
      · subst hek
        have hk : memb (foldOf e) seen = false := by
          cases h : memb (foldOf e) seen
          · rfl
          · exact absurd h hm
        rw [filter_cons_true (fun x => foldOf x == foldOf e) e
              (keptFrom (seen ++ [foldOf e]) rest) (by simp)]
        rw [ih (seen ++ [foldOf e])]
        rw [if_pos (by simp [memb_append, memb_singleton]), hk]
        rw [find?_cons_true (fun x => foldOf x == foldOf e) e rest (by simp)]
        simp
      · have hne : (foldOf e == k) = false := by simp [hek]
        rw [filter_cons_false (fun x => foldOf x == k) e
              (keptFrom (seen ++ [foldOf e]) rest) hne]
        rw [ih (seen ++ [foldOf e])]
        rw [find?_cons_false (fun x => foldOf x == k) e rest hne]
        have hd : decide (foldOf e = k) = false := by simp [hek]
        have hmm : memb k (seen ++ [foldOf e]) = memb k seen := by
          rw [memb_append, memb_singleton, hd, Bool.or_false]
        rw [hmm]

theorem keptFrom_dupsFrom_length : ∀ (l : List JVal) (seen : List String),
    (keptFrom seen l).length + (dupsFrom seen l).length = l.length := by
  intro l
  induction l with
  | nil => intro seen; simp [keptFrom, dupsFrom]
  | cons e rest ih =>
    intro seen
    rw [keptFrom, dupsFrom]
    by_cases hm : memb (foldOf e) seen = true
    · rw [if_pos hm, if_pos hm]
      simp only [List.length_cons]
      rw [← ih seen]
      omega
    · rw [if_neg hm, if_neg hm]
      simp only [List.length_cons]
      rw [← ih (seen ++ [foldOf e])]
      omega

/-- Every input key occurrence lands either in the retained list or in the
duplicates list (whose elements fold back to the key). -/
theorem count_partition (k : String) : ∀ (l : List JVal) (seen : List String),
    List.count k (l.map foldOf) =
      List.count k ((keptFrom seen l).map foldOf) +
        List.count k ((dupsFrom seen l).map lowerStr) := by
  intro l
  induction l with
  | nil => intro seen; simp [keptFrom, dupsFrom]
  | cons e rest ih =>
    intro seen
    have hfold : lowerStr (originalOf e) = foldOf e := rfl
    rw [keptFrom, dupsFrom]
    by_cases hm : memb (foldOf e) seen = true
    · rw [if_pos hm, if_pos hm]
      simp only [List.map_cons, List.count_cons, hfold]
      rw [ih seen]
      omega
    · rw [if_neg hm, if_neg hm]
      simp only [List.map_cons, List.count_cons]
      rw [ih (seen ++ [foldOf e])]
      omega

theorem keptFrom_count (k : String) (l : List JVal) (seen : List String) :
    List.count k ((keptFrom seen l).map foldOf) =
      if memb k seen = true then 0
      else if l.any (fun e => foldOf e == k) then 1 else 0 := by
  have h1 : List.count k ((keptFrom seen l).map foldOf) =
      ((keptFrom seen l).filter (fun e => foldOf e == k)).length := by
    rw [List.count_eq_countP, List.countP_map, List.countP_eq_length_filter]
    rfl
  rw [h1, keptFrom_filter k l seen]
  by_cases hk : memb k seen = true
  · simp [hk]
  · rw [if_neg hk, if_neg hk]
    by_cases ha : l.any (fun e => foldOf e == k) = true
    · rw [if_pos ha]
      obtain ⟨e, he, hpe⟩ := List.any_eq_true.mp ha
      have hs : (l.find? (fun e => foldOf e == k)).isSome = true :=
        List.find?_isSome.mpr ⟨e, he, hpe⟩
      obtain ⟨x, hx⟩ := Option.isSome_iff_exists.mp hs
      simp [hx]
    · rw [if_neg ha]
      have : l.find? (fun e => foldOf e == k) = none := by
        rw [List.find?_eq_none]
        intro x hx
        intro hpx
        exact ha (List.any_eq_true.mpr ⟨x, hx, hpx⟩)
      simp [this]

/-- Spec-level description of the duplicates list: scanning the input with the
list of earlier input entries as context, an entry is recorded as a duplicate
exactly when some earlier input entry bears the same folded key; its raw
`"original"` value is recorded, in scan order. -/
def dupsSpec (pre : List JVal) : List JVal → List String
  | [] => []
  | e :: rest =>
    if memb (foldOf e) (pre.map foldOf) then originalOf e :: dupsSpec (pre ++ [e]) rest
    else dupsSpec (pre ++ [e]) rest

/-- The loop's duplicates list matches the spec-level description whenever the
seen set agrees with the folded keys of the already-scanned prefix. -/
theorem dupsFrom_eq_spec : ∀ (l : List JVal) (seen : List String) (pre : List JVal),
    (∀ k, memb k seen = memb k (pre.map foldOf)) →
    dupsFrom seen l = dupsSpec pre l := by
  intro l
  induction l with
  | nil => intro seen pre _; rfl
  | cons e rest ih =>
    intro seen pre hinv
    rw [dupsFrom, dupsSpec, ← hinv (foldOf e)]
    by_cases hm : memb (foldOf e) seen = true
    · rw [if_pos hm, if_pos hm]
      congr 1
      refine ih seen (pre ++ [e]) ?_
      intro k
      rw [List.map_append, memb_append, List.map_cons, List.map_nil, memb_singleton,
        ← hinv k]
      by_cases hek : foldOf e = k
      · rw [← hek] at *
        simp [hm]
      · simp [hek]
    · rw [if_neg hm, if_neg hm]
      refine ih (seen ++ [foldOf e]) (pre ++ [e]) ?_
      intro k
      rw [memb_append, memb_singleton, List.map_append, memb_append, List.map_cons,
        List.map_nil, memb_singleton, hinv k]

/-- Retaining from a fresh seen set a list whose keys are pairwise distinct
changes nothing and records no duplicate (the idempotence kernel). -/
theorem keptFrom_of_fresh : ∀ (l : List JVal) (seen : List String),
    (∀ e ∈ l, memb (foldOf e) seen = false) →
    l.Pairwise (fun a b => foldOf a ≠ foldOf b) →
    keptFrom seen l = l ∧ dupsFrom seen l = [] := by
  intro l
  induction l with
  | nil => intro seen _ _; exact ⟨rfl, rfl⟩
  | cons e rest ih =>
    intro seen hfresh hpw
    have hm : memb (foldOf e) seen = false := hfresh e (List.mem_cons_self e rest)
    have hrest : ∀ x ∈ rest, memb (foldOf x) (seen ++ [foldOf e]) = false := by
      intro x hx
      rw [memb_append, memb_singleton, hfresh x (List.mem_cons_of_mem e hx)]
      have : foldOf e ≠ foldOf x := (List.pairwise_cons.mp hpw).1 x hx
      simp [this]
    obtain ⟨h1, h2⟩ := ih (seen ++ [foldOf e]) hrest (List.pairwise_cons.mp hpw).2
    rw [keptFrom, dupsFrom, if_neg (by simp [hm]), if_neg (by simp [hm]), h1, h2]
    exact ⟨rfl, rfl⟩

/-- Python dict assignment `d[k] = v`: replaces the value in place if the key
exists, appends the pair otherwise (line 69 of the source replaces). -/
def dictSet (d : List (String × JVal)) (k : String) (v : JVal) : List (String × JVal) :=
  match d with
  | [] => [(k, v)]
  | (k', v') :: rest => if k' = k then (k', v) :: rest else (k', v') :: dictSet rest k v

/-- Lines 68-69: `new_vocabulary = vocabulary.copy(); new_vocabulary["entries"] =
unique_entries`. -/
def newVocabulary (voc : List (String × JVal)) (uniq : List JVal) :
    List (String × JVal) :=
  dictSet voc "entries" (.arr uniq)

/-- Line 74: the file header, every key of the document except `"entries"`. -/
def headerOf (d : List (String × JVal)) : List (String × JVal) :=
  d.filter (fun kv => !(kv.1 == "entries"))

theorem olookup_dictSet_self : ∀ (d : List (String × JVal)) (k : String) (v : JVal),
    olookup k (dictSet d k v) = some v := by
  intro d
  induction d with
  | nil => intro k v; simp [dictSet, olookup]
  | cons kv rest ih =>
    intro k v
    obtain ⟨k', v'⟩ := kv
    rw [dictSet]
    by_cases hk : k' = k
    · rw [if_pos hk, olookup, if_pos hk]
    · rw [if_neg hk, olookup, if_neg hk]
      exact ih k v

theorem olookup_dictSet_ne : ∀ (d : List (String × JVal)) (k k' : String) (v : JVal),
    k' ≠ k → olookup k' (dictSet d k v) = olookup k' d := by
  intro d
  induction d with
  | nil =>
    intro k k' v hne
    have hkk : ¬ k = k' := fun h => hne h.symm
    simp [dictSet, olookup, hkk]
  | cons kv rest ih =>
    intro k k' v hne
    obtain ⟨k0, v0⟩ := kv
    rw [dictSet]
    by_cases hk : k0 = k
    · rw [if_pos hk, olookup, olookup]
      have : ¬ k0 = k' := fun h => hne (h ▸ hk)
      rw [if_neg this, if_neg this]
    · rw [if_neg hk, olookup, olookup]
      by_cases h0 : k0 = k'
      · rw [if_pos h0, if_pos h0]
      · rw [if_neg h0, if_neg h0]
        exact ih k k' v hne

theorem dictSet_keys : ∀ (d : List (String × JVal)) (k : String) (v v0 : JVal),
    olookup k d = some v0 → (dictSet d k v).map Prod.fst = d.map Prod.fst := by
  intro d
  induction d with
  | nil => intro k v v0 h; simp [olookup] at h
  | cons kv rest ih =>
    intro k v v0 h
    obtain ⟨k', v'⟩ := kv
    rw [dictSet]
    by_cases hk : k' = k
    · rw [if_pos hk]; rfl
    · rw [if_neg hk, List.map_cons, List.map_cons]
      rw [olookup, if_neg hk] at h
      rw [ih k v v0 h]

theorem headerOf_dictSet (v : JVal) : ∀ (d : List (String × JVal)),
    headerOf (dictSet d "entries" v) = headerOf d := by
  intro d
  induction d with
  | nil => simp [dictSet, headerOf]
  | cons kv rest ih =>
    obtain ⟨k', v'⟩ := kv
    rw [dictSet]
    by_cases hk : k' = "entries"
    · rw [if_pos hk]
      subst hk
      simp [headerOf]
    · rw [if_neg hk]
      rw [headerOf, headerOf, List.filter_cons, List.filter_cons]
      have hb : (!(k' == "entries")) = true := by simp [hk]
      rw [hb]
      simp only [if_true]
      exact congrArg (List.cons (k', v')) ih

/-- The concrete entry list of spec scenario 1, used as witness input. -/
def demoEntries : List JVal :=
  [ .obj [("original", .str "Apple")],
    .obj [("original", .str "banana")],
    .obj [("original", .str "apple")],
    .obj [("original", .str "Cherry")],
    .obj [("original", .str "BANANA")] ]

def demoUniq : List JVal :=
  [ .obj [("original", .str "Apple")],
    .obj [("original", .str "banana")],
    .obj [("original", .str "Cherry")] ]

def demoDups : List String := ["apple", "BANANA"]

def demoVoc : List (String × JVal) :=
  [("version", .str "1.0"), ("entries", .arr demoEntries)]

/-- C1: on well-formed input the retained output is a subsequence of the input
(relative order preserved), and for every case-folded key the output holds
exactly the first input entry bearing it (later bearers are discarded). -/
theorem dedup_first_occurrence (entries uniq : List JVal) (dups : List String)
    (hwf : ∀ e ∈ entries, entryOk e = true)
    (h : dedupCore entries = .ok (uniq, dups)) :
    List.Sublist uniq entries ∧
    ∀ k : String, uniq.filter (fun e => foldOf e == k) =
      (entries.find? (fun e => foldOf e == k)).toList := by
  obtain ⟨hu, _⟩ := dedupCore_ok_elim hwf h
  subst hu
  refine ⟨keptFrom_sublist entries [], ?_⟩
  intro k
  rw [keptFrom_filter k entries []]
  simp [memb]

theorem dedup_first_occurrence_witness :
    (∀ e ∈ demoEntries, entryOk e = true) ∧
    (List.Sublist demoUniq demoEntries ∧
      ∀ k : String, demoUniq.filter (fun e => foldOf e == k) =
        (demoEntries.find? (fun e => foldOf e == k)).toList) :=
  ⟨by decide, dedup_first_occurrence demoEntries demoUniq demoDups (by decide) rfl⟩

/-- C2: the duplicates list records, in encounter order, the raw `"original"`
value of each entry whose folded key was already borne by an earlier entry; a
key occurring n times contributes n-1 duplicates; and the duplicate branch of
the loop body changes nothing but the duplicates list. -/
theorem dedup_duplicates_order (entries uniq : List JVal) (dups : List String)
    (hwf : ∀ e ∈ entries, entryOk e = true)
    (h : dedupCore entries = .ok (uniq, dups)) :
    dups = dupsSpec [] entries ∧
    (∀ k : String,
      List.count k (dups.map lowerStr) +
        (if entries.any (fun e => foldOf e == k) then 1 else 0) =
      List.count k (entries.map foldOf)) ∧
    (∀ (s : DedupState) (e : JVal) (w : String),
      getOriginal e = .ok w → memb (lowerStr w) s.processed_words = true →
      step s e = .ok { s with duplicates := s.duplicates ++ [w] }) := by
  obtain ⟨hu, hd⟩ := dedupCore_ok_elim hwf h
  subst hu
  subst hd
  refine ⟨dupsFrom_eq_spec entries [] [] (fun k => rfl), ?_, ?_⟩
  · intro k
    have hpart := count_partition k entries []
    have hkept := keptFrom_count k entries []
    rw [hkept] at hpart
    have hm0 : memb k ([] : List String) = false := rfl
    rw [hm0] at hpart
    simp only [Bool.false_eq_true, if_false] at hpart
    rw [hpart]
    by_cases ha : entries.any (fun e => foldOf e == k) = true
    · rw [if_pos ha] at *
      omega
    · rw [if_neg ha] at *
      omega
  · intro s e w hw hm
    simp [step, hw, hm]

theorem dedup_duplicates_order_witness :
    (∀ e ∈ demoEntries, entryOk e = true) ∧
    (demoDups = dupsSpec [] demoEntries ∧
      (∀ k : String,
        List.count k (demoDups.map lowerStr) +
          (if demoEntries.any (fun e => foldOf e == k) then 1 else 0) =
        List.count k (demoEntries.map foldOf)) ∧
      (∀ (s : DedupState) (e : JVal) (w : String),
        getOriginal e = .ok w → memb (lowerStr w) s.processed_words = true →
        step s e = .ok { s with duplicates := s.duplicates ++ [w] })) :=
  ⟨by decide, dedup_duplicates_order demoEntries demoUniq demoDups (by decide) rfl⟩

/-- C3: the retained output entries have pairwise distinct case-folded
`"original"` values. -/
theorem dedup_output_pairwise (entries uniq : List JVal) (dups : List String)
    (hwf : ∀ e ∈ entries, entryOk e = true)
    (h : dedupCore entries = .ok (uniq, dups)) :
    uniq.Pairwise (fun a b => foldOf a ≠ foldOf b) := by
  obtain ⟨hu, _⟩ := dedupCore_ok_elim hwf h
  subst hu
  exact keptFrom_pairwise entries []

theorem dedup_output_pairwise_witness :
    (∀ e ∈ demoEntries, entryOk e = true) ∧
    demoUniq.Pairwise (fun a b => foldOf a ≠ foldOf b) :=
  ⟨by decide, dedup_output_pairwise demoEntries demoUniq demoDups (by decide) rfl⟩

/-- C4: count conservation, retained + duplicates = input size. -/
theorem dedup_count_conservation (entries uniq : List JVal) (dups : List String)
    (hwf : ∀ e ∈ entries, entryOk e = true)
    (h : dedupCore entries = .ok (uniq, dups)) :
    uniq.length + dups.length = entries.length := by
  obtain ⟨hu, hd⟩ := dedupCore_ok_elim hwf h
  subst hu
  subst hd
  exact keptFrom_dupsFrom_length entries []

theorem dedup_count_conservation_witness :
    (∀ e ∈ demoEntries, entryOk e = true) ∧
    demoUniq.length + demoDups.length = demoEntries.length :=
  ⟨by decide, dedup_count_conservation demoEntries demoUniq demoDups (by decide) rfl⟩

/-- C6: idempotence. Running the pass on the document it produced finds the
entry list it emitted, retains it unchanged and records zero duplicates. -/
theorem dedup_idempotent (voc : List (String × JVal)) (entries uniq : List JVal)
    (dups : List String)
    (_hv : olookup "entries" voc = some (.arr entries))
    (hwf : ∀ e ∈ entries, entryOk e = true)
    (h : dedupCore entries = .ok (uniq, dups)) :
    olookup "entries" (newVocabulary voc uniq) = some (.arr uniq) ∧
    dedupCore uniq = .ok (uniq, []) := by
  obtain ⟨hu, _⟩ := dedupCore_ok_elim hwf h
  refine ⟨olookup_dictSet_self voc "entries" (.arr uniq), ?_⟩
  have hwfu : ∀ e ∈ uniq, entryOk e = true := by
    intro e he
    exact hwf e ((keptFrom_sublist entries []).subset (hu ▸ he))
  have hpw : uniq.Pairwise (fun a b => foldOf a ≠ foldOf b) := by
    rw [hu]; exact keptFrom_pairwise entries []
  obtain ⟨h1, h2⟩ := keptFrom_of_fresh uniq [] (fun e _ => rfl) hpw
  rw [dedupCore_eq uniq hwfu, h1, h2]

theorem dedup_idempotent_witness :
    (olookup "entries" demoVoc = some (.arr demoEntries)) ∧
    (∀ e ∈ demoEntries, entryOk e = true) ∧
    (olookup "entries" (newVocabulary demoVoc demoUniq) = some (.arr demoUniq) ∧
      dedupCore demoUniq = .ok (demoUniq, [])) :=
  ⟨rfl, by decide,
    dedup_idempotent demoVoc demoEntries demoUniq demoDups rfl (by decide) rfl⟩

/-- C5: the new document only replaces `"entries"`: every other key keeps its
value, no key is added or removed, the new `"entries"` value is the retained
list, and the header written to the output file is the input's non-entries
pairs unchanged. -/
theorem newVocabulary_passthrough (voc : List (String × JVal)) (uniq : List JVal)
    (v0 : JVal) (hpresent : olookup "entries" voc = some v0) :
    (∀ k : String, k ≠ "entries" →
        olookup k (newVocabulary voc uniq) = olookup k voc) ∧
    (newVocabulary voc uniq).map Prod.fst = voc.map Prod.fst ∧
    olookup "entries" (newVocabulary voc uniq) = some (.arr uniq) ∧
    headerOf (newVocabulary voc uniq) = headerOf voc := by
  refine ⟨?_, ?_, olookup_dictSet_self voc "entries" (.arr uniq), ?_⟩
  · intro k hk
    exact olookup_dictSet_ne voc "entries" k (.arr uniq) hk
  · exact dictSet_keys voc "entries" (.arr uniq) v0 hpresent
  · exact headerOf_dictSet (.arr uniq) voc

theorem newVocabulary_passthrough_witness :
    (olookup "entries" demoVoc = some (.arr demoEntries)) ∧
    ((∀ k : String, k ≠ "entries" →
        olookup k (newVocabulary demoVoc demoUniq) = olookup k demoVoc) ∧
      (newVocabulary demoVoc demoUniq).map Prod.fst = demoVoc.map Prod.fst ∧
      olookup "entries" (newVocabulary demoVoc demoUniq) = some (.arr demoUniq) ∧
      headerOf (newVocabulary demoVoc demoUniq) = headerOf demoVoc) :=
  ⟨rfl, newVocabulary_passthrough demoVoc demoUniq (.arr demoEntries) rfl⟩

/-- C10: after any prefix of a well-formed input is processed, the seen set is
exactly the list of folded keys of the retained entries (so, as a set, the
folded keys of the retained entries), and the next entry is recorded as a
duplicate precisely when some already-retained entry bears its folded key. -/
theorem dedup_loop_invariant (l pre suf : List JVal)
    (hwf : ∀ e ∈ l, entryOk e = true) (hsplit : l = pre ++ suf) :
    ∃ s : DedupState, processEntries initState pre = .ok s ∧
      s.processed_words = s.unique_entries.map foldOf ∧
      (∀ e : JVal, memb (foldOf e) s.processed_words = true ↔
          ∃ u ∈ s.unique_entries, foldOf u = foldOf e) ∧
      (∀ (e : JVal) (w : String) (s' : DedupState), getOriginal e = .ok w →
          step s e = .ok s' →
          (s'.duplicates ≠ s.duplicates ↔ ∃ u ∈ s.unique_entries, foldOf u = foldOf e)) := by
  subst hsplit
  have hpre : ∀ e ∈ pre, entryOk e = true := fun e he =>
    hwf e (List.mem_append_left _ he)
  have heq := processEntries_eq pre [] [] [] hpre
  simp only [List.nil_append] at heq
  refine ⟨⟨(keptFrom [] pre).map foldOf, keptFrom [] pre, dupsFrom [] pre⟩, heq,
    rfl, ?_, ?_⟩
  · intro e
    rw [memb_iff_mem]
    simp [List.mem_map]
  · intro e w s' hw hstep
    have hfe : foldOf e = lowerStr w := by rw [foldOf, originalOf_eq hw]
    simp only [step, hw] at hstep
    by_cases hm : memb (lowerStr w) ((keptFrom [] pre).map foldOf) = true
    · rw [if_pos hm] at hstep
      have hs' := (Except.ok.inj hstep).symm
      subst hs'
      simp only []
      constructor
      · intro _
        rw [← hfe, memb_iff_mem] at hm
        obtain ⟨u, hu, hufe⟩ := List.mem_map.mp hm
        exact ⟨u, hu, hufe⟩
      · intro _
        intro hcontra
        have := congrArg List.length hcontra
        simp at this
    · rw [if_neg hm] at hstep
      have hs' := (Except.ok.inj hstep).symm
      subst hs'
      simp only []
      constructor
      · intro hcontra
        exact absurd rfl hcontra
      · intro ⟨u, hu, hufe⟩
        exfalso
        apply hm
        rw [← hfe, memb_iff_mem]
        exact List.mem_map.mpr ⟨u, hu, hufe⟩

theorem dedup_loop_invariant_witness :
    (∀ e ∈ demoEntries, entryOk e = true) ∧
    (demoEntries = demoEntries.take 2 ++ demoEntries.drop 2) ∧
    ∃ s : DedupState, processEntries initState (demoEntries.take 2) = .ok s ∧
      s.processed_words = s.unique_entries.map foldOf ∧
      (∀ e : JVal, memb (foldOf e) s.processed_words = true ↔
          ∃ u ∈ s.unique_entries, foldOf u = foldOf e) ∧
      (∀ (e : JVal) (w : String) (s' : DedupState), getOriginal e = .ok w →
          step s e = .ok s' →
          (s'.duplicates ≠ s.duplicates ↔ ∃ u ∈ s.unique_entries, foldOf u = foldOf e)) :=
  ⟨by decide, by simp,
    dedup_loop_invariant demoEntries (demoEntries.take 2) (demoEntries.drop 2)
      (by decide) (by simp)⟩

/-! ### The serializer (`json.dumps` with default separators and
`ensure_ascii=False`) and the hand-assembled output text of lines 72-90. -/

/-- Lowercase hex digit, as Python emits in `\uXXXX` escapes. -/
def hexDigitChar (n : Nat) : Char :=
  if n < 10 then Char.ofNat (48 + n) else Char.ofNat (87 + n)

/-- `json.dumps` string escaping with `ensure_ascii=False`: only the quote, the
backslash and control characters are escaped; everything else (non-ASCII
included) is emitted literally. -/
def escapeChar (c : Char) : List Char :=
  if c = '"' then ['\\', '"']
  else if c = '\\' then ['\\', '\\']
  else if c = '\n' then ['\\', 'n']
  else if c = '\t' then ['\\', 't']
  else if c = '\r' then ['\\', 'r']
  else if c = '\x08' then ['\\', 'b']
  else if c = '\x0C' then ['\\', 'f']
  else if c.toNat < 32 then
    ['\\', 'u', '0', '0', hexDigitChar (c.toNat / 16), hexDigitChar (c.toNat % 16)]
  else [c]

def escapeList (cs : List Char) : List Char := (cs.map escapeChar).flatten

/-- Decimal digits of a natural number, most significant first. -/
def natDigits (n : Nat) : List Char :=
  if h : n < 10 then [Char.ofNat (48 + n)]
  else natDigits (n / 10) ++ [Char.ofNat (48 + n % 10)]
termination_by n
decreasing_by exact Nat.div_lt_self (by omega) (by omega)

/-- Python's decimal rendering of an integer. -/
def intRepr (n : Int) : List Char :=
  if n < 0 then '-' :: natDigits n.natAbs else natDigits n.toNat

mutual
/-- `json.dumps(v, ensure_ascii=False)` with the default separators
`", "` and `": "`. -/
def serV : JVal → List Char
  | .null => 'n' :: "ull".data
  | .bool true => 't' :: "rue".data
  | .bool false => 'f' :: "alse".data
  | .num n => intRepr n
  | .str s => '"' :: (escapeList s.data ++ ['"'])
  | .arr [] => ['[', ']']
  | .arr (v :: vs) => '[' :: ((serV v ++ serElemsTail vs) ++ [']'])
  | .obj [] => ['\x7b', '\x7d']
  | .obj (m :: ms) => '\x7b' :: ((serMember m ++ serMembersTail ms) ++ ['\x7d'])
def serElemsTail : List JVal → List Char
  | [] => []
  | v :: vs => ',' :: ' ' :: (serV v ++ serElemsTail vs)
def serMember : String × JVal → List Char
  | (k, v) => '"' :: (escapeList k.data ++ ('"' :: ':' :: ' ' :: serV v))
def serMembersTail : List (String × JVal) → List Char
  | [] => []
  | m :: ms => ',' :: ' ' :: (serMember m ++ serMembersTail ms)
end

/-- Lines 82-87: each retained entry on its own line, two-space indented, a
trailing comma on every line but the last. -/
def entryLines : List JVal → List Char
  | [] => []
  | [e] => ' ' :: ' ' :: (serV e ++ ['\n'])
  | e :: rest => ' ' :: ' ' :: (serV e ++ (',' :: '\n' :: entryLines rest))

/-- Lines 72-90: the exact text written to the output file, assembled by hand
from the dumped header (its closing brace dropped, a comma and newline added),
the literal `"entries": [` line, the entry lines and the closing `]` and
brace. -/
def writtenText (newVoc : List (String × JVal)) (uniq : List JVal) : List Char :=
  (serV (.obj (headerOf newVoc))).dropLast ++ [',', '\n'] ++
    ['"'] ++ "entries".data ++ ['"', ':', ' ', '[', '\n'] ++
    entryLines uniq ++ [']', '\n', '\x7d']

/-! ### The script level: lines 27-110.  The outcome of one run as a function
of the environment (whether the input file exists, and what `json.load`
yields).  The `except` clause of lines 103-107 prints the message and the
traceback and returns normally, and line 34 likewise returns normally, so the
process always exits with status 0. -/

/-- Observable outcome of one run of the script. -/
structure ScriptResult : Type where
  outputWritten : Option (List Char)
  reportedError : Bool
  printedTrace : Bool
  exitCode : Nat
deriving DecidableEq

/-- What lines 42 and 54 see of the `"entries"` value: a list iterates over
its elements; a string iterates over its one-character strings and a mapping
over its keys (each a Python `str`, so a nonempty one makes line 55 raise
`TypeError`, while an empty one makes the loop run zero times and the run
succeed); `len` on any other value raises `TypeError` at line 42. -/
def entriesIter (v : JVal) : Except PyErr (List JVal) :=
  match v with
  | .arr l => .ok l
  | .str s => .ok (s.data.map (fun c => JVal.str (String.mk [c])))
  | .obj fields => .ok (fields.map (fun kv => JVal.str kv.1))
  | _ => .error (.typeError "object has no len")

/-- The whole `check_duplicates` function (plus the `__main__` exit): lines
27-110 of the source.  `content` is what `json.load` would produce from the
input file (an `Except`, since decoding can raise). -/
def check_duplicates (fileExists : Bool) (content : Except PyErr JVal) : ScriptResult :=
  if fileExists = false then
    { outputWritten := none, reportedError := true, printedTrace := false, exitCode := 0 }
  else
    match content with
    | .error _ => { outputWritten := none, reportedError := true,
                    printedTrace := true, exitCode := 0 }
    | .ok doc =>
      match doc with
      | .obj fields =>
        match olookup "entries" fields with
        | some v =>
          match entriesIter v with
          | .ok entries =>
            match dedupCore entries with
            | .ok (uniq, _dups) =>
              { outputWritten := some (writtenText (newVocabulary fields uniq) uniq),
                reportedError := false, printedTrace := false, exitCode := 0 }
            | .error _ => { outputWritten := none, reportedError := true,
                            printedTrace := true, exitCode := 0 }
          | .error _ => { outputWritten := none, reportedError := true,
                          printedTrace := true, exitCode := 0 }
        | none => { outputWritten := none, reportedError := true,
                    printedTrace := true, exitCode := 0 }
      | _ => { outputWritten := none, reportedError := true,
               printedTrace := true, exitCode := 0 }

/-- A run that reaches the write: the file exists, the document decodes to a
mapping with an `"entries"` key, line 42's `len` and the scan raise nothing
(so the output file is created and written). -/
def runSucceeds (fileExists : Bool) (content : Except PyErr JVal) : Prop :=
  fileExists = true ∧ ∃ fields v entries uniq dups,
    content = .ok (.obj fields) ∧
    olookup "entries" fields = some v ∧
    entriesIter v = .ok entries ∧
    dedupCore entries = .ok (uniq, dups)

/-- If some entry is malformed, the loop raises the error of the first
malformed entry: `KeyError` for a missing field, `AttributeError` for a
non-string value (assuming every entry is a mapping). -/
theorem processEntries_fails : ∀ (l : List JVal) (s : DedupState),
    (∀ e ∈ l, ∃ fs, e = .obj fs) →
    (∃ e ∈ l, entryOk e = false) →
    ∃ err, processEntries s l = .error err ∧
      (err = .keyError "original" ∨ err = .attributeError "lower") := by
  intro l
  induction l with
  | nil =>
    intro s _ hbad
    obtain ⟨e, he, _⟩ := hbad
    exact absurd he (List.not_mem_nil e)
  | cons e rest ih =>
    intro s hobj hbad
    cases he : entryOk e with
    | false =>
      obtain ⟨fs, hfs⟩ := hobj e (List.mem_cons_self e rest)
      subst hfs
      rw [entryOk] at he
      refine ⟨?_, ?_⟩
      case _ =>
        exact match h : olookup "original" fs with
          | none => .keyError "original"
          | some v => .attributeError "lower"
      cases h : olookup "original" fs with
      | none =>
        have hg : getOriginal (.obj fs) = .error (.keyError "original") := by
          rw [getOriginal, h]
        rw [processEntries, step, hg]
        simp [h]
      | some v =>
        cases v with
        | str s0 =>
          exfalso
          have hg : getOriginal (.obj fs) = .ok s0 := by rw [getOriginal, h]
          rw [hg] at he
          exact Bool.true_eq_false.mp (by rw [← he])
        | null =>
          have hg : getOriginal (.obj fs) = .error (.attributeError "lower") := by
            rw [getOriginal, h]
          rw [processEntries, step, hg]
          simp [h]
        | bool b =>
          have hg : getOriginal (.obj fs) = .error (.attributeError "lower") := by
            rw [getOriginal, h]
          rw [processEntries, step, hg]
          simp [h]
        | num n =>
          have hg : getOriginal (.obj fs) = .error (.attributeError "lower") := by
            rw [getOriginal, h]
          rw [processEntries, step, hg]
          simp [h]
        | arr l0 =>
          have hg : getOriginal (.obj fs) = .error (.attributeError "lower") := by
            rw [getOriginal, h]
          rw [processEntries, step, hg]
          simp [h]
        | obj fs0 =>
          have hg : getOriginal (.obj fs) = .error (.attributeError "lower") := by
            rw [getOriginal, h]
          rw [processEntries, step, hg]
          simp [h]
    | true =>
      obtain ⟨w, hw⟩ := entryOk_iff.mp he
      have hbadrest : ∃ x ∈ rest, entryOk x = false := by
        obtain ⟨x, hx, hxf⟩ := hbad
        rcases List.mem_cons.mp hx with h | h
        · subst h
          rw [he] at hxf
          exact absurd hxf (by simp)
        · exact ⟨x, h, hxf⟩
      have hobjrest : ∀ x ∈ rest, ∃ fs, x = .obj fs := fun x hx =>
        hobj x (List.mem_cons_of_mem e hx)
      by_cases hm : memb (lowerStr w) s.processed_words = true
      · have hstep : step s e = .ok { s with duplicates := s.duplicates ++ [w] } := by
          simp [step, hw, hm]
        obtain ⟨err, herr, hsh⟩ := ih _ hobjrest hbadrest
        refine ⟨err, ?_, hsh⟩
        rw [processEntries, hstep]
        exact herr
      · have hstep : step s e = .ok { s with
            unique_entries := s.unique_entries ++ [e],
            processed_words := s.processed_words ++ [lowerStr w] } := by
          simp only [step, hw]
          rw [if_neg (by simp [hm])]
        obtain ⟨err, herr, hsh⟩ := ih _ hobjrest hbadrest
        refine ⟨err, ?_, hsh⟩
        rw [processEntries, hstep]
        exact herr

/-- C8 counterexample: the error raised for a malformed entry is the bare
`KeyError("original")`, identical whether the offending entry sits at index 0
or at index 1 of the input — it carries no entry index, and no `MalformedEntry`
type exists in the program. -/
theorem malformed_entry_error_carries_no_index :
    dedupCore [JVal.obj []] = .error (.keyError "original") ∧
    dedupCore [JVal.obj [("original", .str "a")], JVal.obj []] =
      .error (.keyError "original") :=
  ⟨rfl, rfl⟩

/-- C8 (amended): an entry missing `"original"` or holding a non-string value
makes the scan raise (`KeyError("original")` or `AttributeError`) before the
output file is opened, so no output is written and the failure is reported —
but the error names no entry index. -/
theorem malformed_entry_fails (fields : List (String × JVal)) (entries : List JVal)
    (ho : olookup "entries" fields = some (.arr entries))
    (hobj : ∀ e ∈ entries, ∃ fs, e = .obj fs)
    (hbad : ∃ e ∈ entries, entryOk e = false) :
    ∃ err, dedupCore entries = .error err ∧
      (err = .keyError "original" ∨ err = .attributeError "lower") ∧
      check_duplicates true (.ok (.obj fields)) =
        { outputWritten := none, reportedError := true,
          printedTrace := true, exitCode := 0 } := by
  obtain ⟨err, herr, hsh⟩ := processEntries_fails entries initState hobj hbad
  have hcore : dedupCore entries = .error err := by
    rw [dedupCore, herr]
  refine ⟨err, hcore, hsh, ?_⟩
  simp [check_duplicates, entriesIter, ho, hcore]

theorem malformed_entry_fails_witness :
    (olookup "entries" [("entries", JVal.arr [JVal.obj []])] =
      some (.arr [JVal.obj []])) ∧
    (∃ err, dedupCore [JVal.obj []] = .error err ∧
      (err = .keyError "original" ∨ err = .attributeError "lower") ∧
      check_duplicates true (.ok (.obj [("entries", JVal.arr [JVal.obj []])])) =
        { outputWritten := none, reportedError := true,
          printedTrace := true, exitCode := 0 }) :=
  ⟨rfl, malformed_entry_fails [("entries", JVal.arr [JVal.obj []])] [JVal.obj []]
    rfl
    (by
      intro e he
      rw [List.mem_singleton] at he
      exact ⟨[], he⟩)
    ⟨JVal.obj [], List.mem_singleton.mpr rfl, rfl⟩⟩

/-- C9 counterexample: a failing run (missing input file) is reported but the
process terminates with exit status 0 — a success status, not a failure
status (the function returns normally; there is no `sys.exit`). -/
theorem script_failure_exits_zero :
    (check_duplicates false (.ok .null)).reportedError = true ∧
    (check_duplicates false (.ok .null)).exitCode = 0 :=
  ⟨rfl, rfl⟩

/-- C9 (amended): every failing run is caught and reported — with a traceback
whenever the failure is an exception rather than the up-front existence check —
and writes no output file; but the process always terminates with exit status
0 (success). -/
theorem script_error_handling (fe : Bool) (content : Except PyErr JVal)
    (hfail : ¬ runSucceeds fe content) :
    (check_duplicates fe content).outputWritten = none ∧
    (check_duplicates fe content).reportedError = true ∧
    (check_duplicates fe content).exitCode = 0 ∧
    (fe = true → (check_duplicates fe content).printedTrace = true) := by
  cases fe with
  | false =>
    refine ⟨rfl, rfl, rfl, ?_⟩
    intro h
    exact absurd h (by simp)
  | true =>
    cases content with
    | error e => exact ⟨rfl, rfl, rfl, fun _ => rfl⟩
    | ok j =>
      cases j with
      | obj fields =>
        cases ho : olookup "entries" fields with
        | none => refine ⟨?_, ?_, ?_, fun _ => ?_⟩ <;> simp [check_duplicates, ho]
        | some v =>
          cases hiter : entriesIter v with
          | error err =>
            refine ⟨?_, ?_, ?_, fun _ => ?_⟩ <;>
              simp [check_duplicates, ho, hiter]
          | ok entries =>
            cases hc : dedupCore entries with
            | error err =>
              refine ⟨?_, ?_, ?_, fun _ => ?_⟩ <;>
                simp [check_duplicates, ho, hiter, hc]
            | ok pr =>
              exfalso
              apply hfail
              exact ⟨rfl, fields, v, entries, pr.1, pr.2, rfl, ho, hiter, by rw [hc]⟩
      | null => exact ⟨rfl, rfl, rfl, fun _ => rfl⟩
      | bool b => exact ⟨rfl, rfl, rfl, fun _ => rfl⟩
      | num n => exact ⟨rfl, rfl, rfl, fun _ => rfl⟩
      | str s => exact ⟨rfl, rfl, rfl, fun _ => rfl⟩
      | arr l => exact ⟨rfl, rfl, rfl, fun _ => rfl⟩

theorem script_error_handling_witness :
    (¬ runSucceeds true (.error .decodeError)) ∧
    ((check_duplicates true (.error .decodeError)).outputWritten = none ∧
      (check_duplicates true (.error .decodeError)).reportedError = true ∧
      (check_duplicates true (.error .decodeError)).exitCode = 0 ∧
      (true = true → (check_duplicates true (.error .decodeError)).printedTrace = true)) :=
  ⟨by
    rintro ⟨-, fields, v, entries, uniq, dups, heq, -⟩
    exact Except.noConfusion heq,
    script_error_handling true (.error .decodeError) (by
      rintro ⟨-, fields, v, entries, uniq, dups, heq, -⟩
      exact Except.noConfusion heq)⟩

/-! ### A standard JSON reader.  Recursive-descent parser used to state what a
correct reader makes of the written text: whitespace-insensitive between
tokens, strings with the JSON escapes, integer numerals (the script's data
carries no floats). -/

def isWsChar (c : Char) : Bool := c = ' ' || c = '\n' || c = '\t' || c = '\r'

def skipWs : List Char → List Char
  | [] => []
  | c :: cs => if isWsChar c then skipWs cs else c :: cs

def hexVal (c : Char) : Option Nat :=
  if '0' ≤ c ∧ c ≤ '9' then some (c.toNat - 48)
  else if 'a' ≤ c ∧ c ≤ 'f' then some (c.toNat - 87)
  else if 'A' ≤ c ∧ c ≤ 'F' then some (c.toNat - 55)
  else none

def unescapeChar (e : Char) : Option Char :=
  if e = '"' then some '"'
  else if e = '\\' then some '\\'
  else if e = '/' then some '/'
  else if e = 'n' then some '\n'
  else if e = 't' then some '\t'
  else if e = 'r' then some '\r'
  else if e = 'b' then some '\x08'
  else if e = 'f' then some '\x0C'
  else none

/-- Body of a JSON string literal after the opening quote: the decoded
characters and the text after the closing quote. -/
def parseStringBody : List Char → Option (List Char × List Char)
  | [] => none
  | c :: cs =>
    if c = '"' then some ([], cs)
    else if c = '\\' then
      match cs with
      | [] => none
      | e :: cs2 =>
        if e = 'u' then
          match cs2 with
          | a :: b :: c3 :: d :: cs3 =>
            match hexVal a, hexVal b, hexVal c3, hexVal d with
            | some ha, some hb, some hc, some hd =>
              (parseStringBody cs3).map
                (fun p => (Char.ofNat (4096 * ha + 256 * hb + 16 * hc + hd) :: p.1, p.2))
            | _, _, _, _ => none
          | _ => none
        else
          match unescapeChar e with
          | some c2 => (parseStringBody cs2).map (fun p => (c2 :: p.1, p.2))
          | none => none
    else (parseStringBody cs).map (fun p => (c :: p.1, p.2))

def digitsVal (ds : List Char) : Nat := ds.foldl (fun a c => 10 * a + (c.toNat - 48)) 0

def spanDigits : List Char → (List Char × List Char)
  | [] => ([], [])
  | c :: cs =>
    if c.isDigit then (c :: (spanDigits cs).1, (spanDigits cs).2)
    else ([], c :: cs)

def parseNum (cs : List Char) : Option (Int × List Char) :=
  match cs with
  | [] => none
  | c :: rest =>
    if c = '-' then
      match spanDigits rest with
      | ([], _) => none
      | (ds, r) => some (-(digitsVal ds : Int), r)
    else
      match spanDigits (c :: rest) with
      | ([], _) => none
      | (ds, r) => some ((digitsVal ds : Int), r)

mutual
def parseValue : Nat → List Char → Option (JVal × List Char)
  | 0, _ => none
  | fuel + 1, cs =>
    match skipWs cs with
    | [] => none
    | c :: rest =>
      if c = 'n' then
        match rest with
        | 'u' :: 'l' :: 'l' :: r => some (.null, r)
        | _ => none
      else if c = 't' then
        match rest with
        | 'r' :: 'u' :: 'e' :: r => some (.bool true, r)
        | _ => none
      else if c = 'f' then
        match rest with
        | 'a' :: 'l' :: 's' :: 'e' :: r => some (.bool false, r)
        | _ => none
      else if c = '"' then
        (parseStringBody rest).map (fun p => (.str (String.mk p.1), p.2))
      else if c = '[' then
        match skipWs rest with
        | [] => none
        | c2 :: r2 =>
          if c2 = ']' then some (.arr [], r2)
          else (parseElems fuel (c2 :: r2)).map (fun p => (.arr p.1, p.2))
      else if c = '\x7b' then
        match skipWs rest with
        | [] => none
        | c2 :: r2 =>
          if c2 = '\x7d' then some (.obj [], r2)
          else (parseMembers fuel (c2 :: r2)).map (fun p => (.obj p.1, p.2))
      else
        (parseNum (c :: rest)).map (fun p => (.num p.1, p.2))
def parseElems : Nat → List Char → Option (List JVal × List Char)
  | 0, _ => none
  | fuel + 1, cs =>
    match parseValue fuel cs with
    | none => none
    | some (v, r1) =>
      match skipWs r1 with
      | [] => none
      | c :: r2 =>
        if c = ',' then (parseElems fuel (skipWs r2)).map (fun p => (v :: p.1, p.2))
        else if c = ']' then some ([v], r2)
        else none
def parseMembers : Nat → List Char → Option (List (String × JVal) × List Char)
  | 0, _ => none
  | fuel + 1, cs =>
    match cs with
    | [] => none
    | c0 :: r0 =>
      if c0 = '"' then
        match parseStringBody r0 with
        | none => none
        | some (k, r1) =>
          match skipWs r1 with
          | [] => none
          | c1 :: r2 =>
            if c1 = ':' then
              match parseValue fuel (skipWs r2) with
              | none => none
              | some (v, r3) =>
                match skipWs r3 with
                | [] => none
                | c2 :: r4 =>
                  if c2 = ',' then
                    (parseMembers fuel (skipWs r4)).map
                      (fun p => ((String.mk k, v) :: p.1, p.2))
                  else if c2 = '\x7d' then some ([(String.mk k, v)], r4)
                  else none
            else none
      else none
end

/-- Parse a whole text: one value, nothing but whitespace after it. -/
def jsonLoads (cs : List Char) : Option JVal :=
  match parseValue (cs.length + 1) cs with
  | some (v, rest) => if skipWs rest = [] then some v else none
  | none => none

/-- C7 counterexample: for a well-formed input document whose only key is
`"entries"` the script writes text that begins with the characters
of `dumps({})[:-1] + ','`, namely an opening brace followed directly by a
comma — not JSON syntax; the reader rejects the whole output text. -/
theorem written_output_not_json :
    (check_duplicates true (.ok (.obj [("entries", JVal.arr [])]))).outputWritten =
      some (writtenText (newVocabulary [("entries", JVal.arr [])] []) []) ∧
    jsonLoads (writtenText (newVocabulary [("entries", JVal.arr [])] []) []) = none :=
  ⟨rfl, rfl⟩

/-! ### Round trip, part 1: whitespace, strings, numerals. -/

theorem skipWs_of_head {c : Char} (t : List Char) (h : isWsChar c = false) :
    skipWs (c :: t) = c :: t := by
  rw [skipWs, if_neg (by simp [h])]

theorem skipWs_ws_append : ∀ (ws t : List Char), (∀ c ∈ ws, isWsChar c = true) →
    skipWs (ws ++ t) = skipWs t := by
  intro ws
  induction ws with
  | nil => intro t _; rfl
  | cons c cs ih =>
    intro t h
    rw [List.cons_append, skipWs, if_pos (h c (List.mem_cons_self c cs))]
    exact ih t (fun x hx => h x (List.mem_cons_of_mem c hx))

theorem skipWs_idem : ∀ t, skipWs (skipWs t) = skipWs t := by
  intro t
  induction t with
  | nil => rfl
  | cons c cs ih =>
    rw [skipWs]
    by_cases h : isWsChar c = true
    · rw [if_pos h]
      exact ih
    · rw [if_neg h, skipWs, if_neg h]

theorem parseValue_skipWs (fuel : Nat) (t : List Char) :
    parseValue fuel (skipWs t) = parseValue fuel t := by
  cases fuel with
  | zero => rfl
  | succ f => rw [parseValue, parseValue, skipWs_idem]

theorem escapeList_nil : escapeList [] = [] := rfl

theorem escapeList_cons (c : Char) (cs : List Char) :
    escapeList (c :: cs) = escapeChar c ++ escapeList cs := by
  simp [escapeList]

theorem hexVal_hexDigit : ∀ n, n < 16 → hexVal (hexDigitChar n) = some n := by decide

theorem parseStringBody_quote (cs : List Char) : parseStringBody ('"' :: cs) = some ([], cs) := by
  rw [parseStringBody.eq_def]
  dsimp only []
  rw [if_pos rfl]

theorem parseStringBody_esc (e c2 : Char) (tail : List Char) (hu : e ≠ 'u')
    (h : unescapeChar e = some c2) :
    parseStringBody ('\\' :: e :: tail) =
      (parseStringBody tail).map (fun p => (c2 :: p.1, p.2)) := by
  rw [parseStringBody.eq_def]
  dsimp only []
  rw [if_neg (show ¬(('\\' : Char) = '"') by decide), if_pos rfl, if_neg hu, h]

theorem parseStringBody_plain (c : Char) (tail : List Char) (h1 : c ≠ '"') (h2 : c ≠ '\\') :
    parseStringBody (c :: tail) =
      (parseStringBody tail).map (fun p => (c :: p.1, p.2)) := by
  rw [parseStringBody.eq_def]
  dsimp only []
  rw [if_neg h1, if_neg h2]

theorem parseStringBody_u (a b c3 d : Char) (na nb nc nd : Nat) (tail : List Char)
    (ha : hexVal a = some na) (hb : hexVal b = some nb)
    (hc : hexVal c3 = some nc) (hd : hexVal d = some nd) :
    parseStringBody ('\\' :: 'u' :: a :: b :: c3 :: d :: tail) =
      (parseStringBody tail).map
        (fun p => (Char.ofNat (4096 * na + 256 * nb + 16 * nc + nd) :: p.1, p.2)) := by
  rw [parseStringBody.eq_def]
  dsimp only []
  rw [if_neg (show ¬(('\\' : Char) = '"') by decide), if_pos rfl, if_pos rfl, ha, hb, hc, hd]

/-- Decoding the serializer's escaping recovers the characters exactly. -/
theorem parseStringBody_escape : ∀ (cs rest : List Char),
    parseStringBody (escapeList cs ++ ('"' :: rest)) = some (cs, rest) := by
  intro cs
  induction cs with
  | nil => intro rest; exact parseStringBody_quote rest
  | cons c cs ih =>
    intro rest
    rw [escapeList_cons, List.append_assoc, escapeChar]
    by_cases h1 : c = '"'
    · subst h1
      rw [if_pos rfl, List.cons_append, List.cons_append, List.nil_append]
      rw [parseStringBody_esc '"' '"' _ (by decide) rfl, ih]
      rfl
    · rw [if_neg h1]
      by_cases h2 : c = '\\'
      · subst h2
        rw [if_pos rfl, List.cons_append, List.cons_append, List.nil_append]
        rw [parseStringBody_esc '\\' '\\' _ (by decide) rfl, ih]
        rfl
      · rw [if_neg h2]
        by_cases h3 : c = '\n'
        · subst h3
          rw [if_pos rfl, List.cons_append, List.cons_append, List.nil_append]
          rw [parseStringBody_esc 'n' '\n' _ (by decide) rfl, ih]
          rfl
        · rw [if_neg h3]
          by_cases h4 : c = '\t'
          · subst h4
            rw [if_pos rfl, List.cons_append, List.cons_append, List.nil_append]
            rw [parseStringBody_esc 't' '\t' _ (by decide) rfl, ih]
            rfl
          · rw [if_neg h4]
            by_cases h5 : c = '\r'
            · subst h5
              rw [if_pos rfl, List.cons_append, List.cons_append, List.nil_append]
              rw [parseStringBody_esc 'r' '\r' _ (by decide) rfl, ih]
              rfl
            · rw [if_neg h5]
              by_cases h6 : c = '\x08'
              · subst h6
                rw [if_pos rfl, List.cons_append, List.cons_append, List.nil_append]
                rw [parseStringBody_esc 'b' '\x08' _ (by decide) rfl, ih]
                rfl
              · rw [if_neg h6]
                by_cases h7 : c = '\x0C'
                · subst h7
                  rw [if_pos rfl, List.cons_append, List.cons_append, List.nil_append]
                  rw [parseStringBody_esc 'f' '\x0C' _ (by decide) rfl, ih]
                  rfl
                · rw [if_neg h7]
                  by_cases h8 : c.toNat < 32
                  · rw [if_pos h8]
                    rw [show (['\\', 'u', '0', '0', hexDigitChar (c.toNat / 16),
                          hexDigitChar (c.toNat % 16)] : List Char) ++
                          (escapeList cs ++ ('"' :: rest)) =
                        '\\' :: 'u' :: '0' :: '0' :: hexDigitChar (c.toNat / 16) ::
                          hexDigitChar (c.toNat % 16) ::
                          (escapeList cs ++ ('"' :: rest)) from rfl]
                    rw [parseStringBody_u '0' '0' (hexDigitChar (c.toNat / 16))
                      (hexDigitChar (c.toNat % 16)) 0 0 (c.toNat / 16) (c.toNat % 16) _
                      (by decide) (by decide)
                      (hexVal_hexDigit _ (by omega)) (hexVal_hexDigit _ (by omega))]
                    have hre : 4096 * 0 + 256 * 0 + 16 * (c.toNat / 16) + c.toNat % 16 =
                        c.toNat := by omega
                    rw [hre, Char.ofNat_toNat, ih]
                    rfl
                  · rw [if_neg h8, List.cons_append, List.nil_append]
                    rw [parseStringBody_plain c _ h1 h2, ih]
                    rfl

theorem digitChar_facts : ∀ k, k < 10 →
    ((Char.ofNat (48 + k)).toNat = 48 + k ∧ (Char.ofNat (48 + k)).isDigit = true) := by
  decide

theorem natDigits_all : ∀ n : Nat, ∀ c ∈ natDigits n, c.isDigit = true := by
  intro n
  induction n using Nat.strong_induction_on with
  | _ n ih =>
    rw [natDigits]
    by_cases h : n < 10
    · rw [dif_pos h]
      intro c hc
      rw [List.mem_singleton] at hc
      subst hc
      exact (digitChar_facts n h).2
    · rw [dif_neg h]
      intro c hc
      rcases List.mem_append.mp hc with h2 | h2
      · exact ih (n / 10) (Nat.div_lt_self (by omega) (by omega)) c h2
      · rw [List.mem_singleton] at h2
        subst h2
        exact (digitChar_facts (n % 10) (by omega)).2

theorem natDigits_head : ∀ n : Nat, ∃ c cs, natDigits n = c :: cs ∧ c.isDigit = true := by
  intro n
  induction n using Nat.strong_induction_on with
  | _ n ih =>
    rw [natDigits]
    by_cases h : n < 10
    · rw [dif_pos h]
      exact ⟨_, _, rfl, (digitChar_facts n h).2⟩
    · rw [dif_neg h]
      obtain ⟨c, cs, heq, hd⟩ := ih (n / 10) (Nat.div_lt_self (by omega) (by omega))
      exact ⟨c, cs ++ [Char.ofNat (48 + n % 10)], by rw [heq, List.cons_append], hd⟩

theorem digitsVal_append_one (ds : List Char) (c : Char) :
    digitsVal (ds ++ [c]) = 10 * digitsVal ds + (c.toNat - 48) := by
  simp [digitsVal, List.foldl_append]

theorem digitsVal_natDigits : ∀ n : Nat, digitsVal (natDigits n) = n := by
  intro n
  induction n using Nat.strong_induction_on with
  | _ n ih =>
    rw [natDigits]
    by_cases h : n < 10
    · rw [dif_pos h]
      have h1 := (digitChar_facts n h).1
      simp [digitsVal]
      omega
    · rw [dif_neg h]
      rw [digitsVal_append_one, ih (n / 10) (Nat.div_lt_self (by omega) (by omega))]
      have h1 := (digitChar_facts (n % 10) (by omega)).1
      omega

/-- Heads that can follow a serialized value without extending it. -/
def stopper (rest : List Char) : Prop :=
  rest = [] ∨ ∃ c t2, rest = c :: t2 ∧ c.isDigit = false

theorem spanDigits_exact : ∀ (ds rest : List Char),
    (∀ c ∈ ds, c.isDigit = true) → stopper rest →
    spanDigits (ds ++ rest) = (ds, rest) := by
  intro ds
  induction ds with
  | nil =>
    intro rest _ hr
    rcases hr with h | ⟨c, t2, hceq, hcd⟩
    · subst h; rfl
    · subst hceq
      rw [List.nil_append, spanDigits, if_neg (by simp [hcd])]
  | cons c cs ih =>
    intro rest hds hr
    rw [List.cons_append, spanDigits, if_pos (hds c (List.mem_cons_self c cs))]
    rw [ih rest (fun x hx => hds x (List.mem_cons_of_mem c hx)) hr]

theorem parseNum_repr : ∀ (n : Int) (rest : List Char), stopper rest →
    parseNum (intRepr n ++ rest) = some (n, rest) := by
  intro n rest hr
  by_cases hn : n < 0
  · rw [intRepr, if_pos hn, List.cons_append]
    rw [parseNum.eq_def]
    dsimp only []
    rw [if_pos rfl]
    obtain ⟨c, cs, hcc, _⟩ := natDigits_head n.natAbs
    rw [spanDigits_exact _ _ (natDigits_all _) hr]
    rw [hcc]
    dsimp only []
    rw [← hcc, digitsVal_natDigits]
    have : -(n.natAbs : Int) = n := by omega
    rw [this]
  · rw [intRepr, if_neg hn]
    obtain ⟨c, cs, hcc, hcd⟩ := natDigits_head n.toNat
    rw [hcc, List.cons_append, parseNum.eq_def]
    dsimp only []
    have hcm : c ≠ '-' := by
      intro hc
      subst hc
      exact absurd hcd (by decide)
    rw [if_neg hcm, ← List.cons_append, ← hcc,
      spanDigits_exact _ _ (natDigits_all _) hr, hcc]
    dsimp only []
    rw [← hcc, digitsVal_natDigits]
    have : (n.toNat : Int) = n := by omega
    rw [this]

/-! ### Round trip, part 2: sizes (a fuel bound) and the layout relation
describing the texts the writer and the serializer produce. -/

mutual
def jsize : JVal → Nat
  | .null => 1
  | .bool _ => 1
  | .num _ => 1
  | .str _ => 1
  | .arr l => 1 + jsizeL l
  | .obj m => 1 + jsizeM m
def jsizeL : List JVal → Nat
  | [] => 0
  | v :: vs => 1 + jsize v + jsizeL vs
def jsizeM : List (String × JVal) → Nat
  | [] => 0
  | m :: ms => 1 + jsize m.2 + jsizeM ms
end

theorem intRepr_ne_nil (n : Int) : 1 ≤ (intRepr n).length := by
  rw [intRepr]
  by_cases h : n < 0
  · simp [h]
  · rw [if_neg h]
    obtain ⟨c, cs, hcc, -⟩ := natDigits_head n.toNat
    rw [hcc]
    simp

mutual
theorem jsize_le_serV : ∀ v : JVal, jsize v ≤ (serV v).length
  | .null => by rw [jsize, serV]; simp
  | .bool true => by rw [jsize, serV]; simp
  | .bool false => by rw [jsize, serV]; simp
  | .num n => by rw [jsize, serV]; exact intRepr_ne_nil n
  | .str s => by rw [jsize, serV]; simp
  | .arr [] => by rw [jsize, serV, jsizeL]; simp
  | .arr (v :: vs) => by
      have h1 := jsize_le_serV v
      have h2 := jsizeL_le_tail vs
      rw [jsize, serV, jsizeL]
      simp only [List.length_cons, List.length_append]
      omega
  | .obj [] => by rw [jsize, serV, jsizeM]; simp
  | .obj (m :: ms) => by
      have h1 := jsize_le_serMember m
      have h2 := jsizeM_le_tail ms
      rw [jsize, serV, jsizeM]
      simp only [List.length_cons, List.length_append]
      omega
theorem jsizeL_le_tail : ∀ vs : List JVal, jsizeL vs ≤ (serElemsTail vs).length
  | [] => by rw [jsizeL, serElemsTail]; simp
  | v :: vs => by
      have h1 := jsize_le_serV v
      have h2 := jsizeL_le_tail vs
      rw [jsizeL, serElemsTail]
      simp only [List.length_cons, List.length_append]
      omega
theorem jsize_le_serMember : ∀ m : String × JVal, 1 + jsize m.2 ≤ (serMember m).length
  | (k, v) => by
      have h1 := jsize_le_serV v
      rw [serMember]
      simp only [List.length_cons, List.length_append]
      omega
theorem jsizeM_le_tail : ∀ ms : List (String × JVal), jsizeM ms ≤ (serMembersTail ms).length
  | [] => by rw [jsizeM, serMembersTail]; simp
  | m :: ms => by
      have h1 := jsize_le_serMember m
      have h2 := jsizeM_le_tail ms
      rw [jsizeM, serMembersTail]
      simp only [List.length_cons, List.length_append]
      omega
end

theorem jsize_pos : ∀ v : JVal, 1 ≤ jsize v := by
  intro v
  cases v <;> (rw [jsize]) <;> omega

theorem jsizeM_append (a b : List (String × JVal)) :
    jsizeM (a ++ b) = jsizeM a + jsizeM b := by
  induction a with
  | nil => rw [List.nil_append, jsizeM]; omega
  | cons m ms ih => rw [List.cons_append, jsizeM, jsizeM, ih]; omega

theorem jsizeL_le_entryLines : ∀ l : List JVal, jsizeL l ≤ (entryLines l).length := by
  intro l
  induction l with
  | nil => rw [jsizeL, entryLines]; simp
  | cons e rest ih =>
    cases rest with
    | nil =>
      have h1 := jsize_le_serV e
      rw [jsizeL, jsizeL, entryLines]
      simp only [List.length_cons, List.length_append]
      omega
    | cons e2 rest2 =>
      have h1 := jsize_le_serV e
      rw [jsizeL, entryLines]
      · simp only [List.length_cons, List.length_append]
        omega
      · intro hcontra
        exact List.noConfusion hcontra

/-- Lists of whitespace characters. -/
def IsWs (ws : List Char) : Prop := ∀ c ∈ ws, isWsChar c = true

instance IsWsDecidable (ws : List Char) : Decidable (IsWs ws) := by
  unfold IsWs
  infer_instance

/-- `rest` may follow a rendered value without extending it (only numerals can
be extended, by a digit). -/
def numSafe (v : JVal) (rest : List Char) : Prop :=
  match v with
  | .num _ => stopper rest
  | _ => True

mutual
/-- `VT v rest t`: the text `t` renders the value `v` followed by the text
`rest`, either exactly as the serializer prints it or in the writer's layout
(brackets with interior whitespace around structured renderings). -/
inductive VT : JVal → List Char → List Char → Prop where
  | exact (v : JVal) (rest : List Char) (h : numSafe v rest) : VT v rest (serV v ++ rest)
  | arrNil (ws rest : List Char) (h : IsWs ws) :
      VT (.arr []) rest ('[' :: (ws ++ (']' :: rest)))
  | arrCons (es : List JVal) (ws rest t : List Char) (h : IsWs ws) (he : ET es rest t) :
      VT (.arr es) rest ('[' :: (ws ++ t))
  | objCons (ms : List (String × JVal)) (ws rest t : List Char) (h : IsWs ws)
      (hm : MT ms rest t) : VT (.obj ms) rest ('\x7b' :: (ws ++ t))
/-- `ET es rest t`: `t` renders the nonempty element list `es` (each element a
`VT` text) with `,` separators and a closing `]`, followed by `rest`. -/
inductive ET : List JVal → List Char → List Char → Prop where
  | last (v : JVal) (ws rest t : List Char) (h : IsWs ws)
      (hv : VT v (ws ++ (']' :: rest)) t) : ET [v] rest t
  | cons (v : JVal) (vs : List JVal) (ws1 ws2 rest t t' : List Char)
      (h1 : IsWs ws1) (h2 : IsWs ws2) (hv : VT v (ws1 ++ (',' :: (ws2 ++ t'))) t)
      (hes : ET vs rest t') : ET (v :: vs) rest t
/-- `MT ms rest t`: `t` renders the nonempty member list `ms` (escaped key,
colon, `VT` value text) with `,` separators and a closing brace, followed by
`rest`. -/
inductive MT : List (String × JVal) → List Char → List Char → Prop where
  | last (k : String) (v : JVal) (ws1 ws2 ws3 rest tv : List Char)
      (h1 : IsWs ws1) (h2 : IsWs ws2) (h3 : IsWs ws3)
      (hv : VT v (ws3 ++ ('\x7d' :: rest)) tv) :
      MT [(k, v)] rest
        ('"' :: (escapeList k.data ++ ('"' :: (ws1 ++ (':' :: (ws2 ++ tv))))))
  | cons (k : String) (v : JVal) (ms : List (String × JVal))
      (ws1 ws2 ws3 ws4 rest tv t' : List Char)
      (h1 : IsWs ws1) (h2 : IsWs ws2) (h3 : IsWs ws3) (h4 : IsWs ws4)
      (hv : VT v (ws3 ++ (',' :: (ws4 ++ t'))) tv)
      (hms : MT ms rest t') :
      MT ((k, v) :: ms) rest
        ('"' :: (escapeList k.data ++ ('"' :: (ws1 ++ (':' :: (ws2 ++ tv))))))
end

/-- Characters that may open a rendered value. -/
def goodHead (c : Char) : Prop :=
  isWsChar c = false ∧ c ≠ ']' ∧ c ≠ '\x7d' ∧ c ≠ ','

instance goodHeadDecidable (c : Char) : Decidable (goodHead c) := by
  unfold goodHead
  infer_instance

theorem digit_head_ok (c : Char) (hc : c.isDigit = true) : goodHead c := by
  refine ⟨?_, ?_, ?_, ?_⟩
  · cases hw : isWsChar c
    · rfl
    · exfalso
      have h2 : c = ' ' ∨ c = '\n' ∨ c = '\t' ∨ c = '\x0d' := by
        simpa [isWsChar, or_assoc] using hw
      rcases h2 with h | h | h | h <;> (subst h; exact absurd hc (by decide))
  · intro h; subst h; exact absurd hc (by decide)
  · intro h; subst h; exact absurd hc (by decide)
  · intro h; subst h; exact absurd hc (by decide)

theorem serV_head : ∀ v : JVal, ∃ c cs, serV v = c :: cs ∧ goodHead c := by
  intro v
  cases v with
  | null => exact ⟨'n', _, by rw [serV], by decide⟩
  | bool b =>
    cases b with
    | true => exact ⟨'t', _, by rw [serV], by decide⟩
    | false => exact ⟨'f', _, by rw [serV], by decide⟩
  | num n =>
    have h : serV (.num n) = intRepr n := by rw [serV]
    rw [h, intRepr]
    by_cases hn : n < 0
    · rw [if_pos hn]
      exact ⟨'-', _, rfl, by decide⟩
    · rw [if_neg hn]
      obtain ⟨c, cs, hcc, hcd⟩ := natDigits_head n.toNat
      rw [hcc]
      exact ⟨c, cs, rfl, digit_head_ok c hcd⟩
  | str s => exact ⟨'"', _, by rw [serV], by decide⟩
  | arr l =>
    cases l with
    | nil => exact ⟨'[', _, by rw [serV], by decide⟩
    | cons v vs => exact ⟨'[', _, by rw [serV], by decide⟩
  | obj m =>
    cases m with
    | nil => exact ⟨'\x7b', _, by rw [serV], by decide⟩
    | cons kv ms => exact ⟨'\x7b', _, by rw [serV], by decide⟩

theorem VT_head {v : JVal} {rest t : List Char} (h : VT v rest t) :
    ∃ c t2, t = c :: t2 ∧ goodHead c := by
  cases h with
  | exact v rest hsafe =>
    obtain ⟨c, cs, hcc, hg⟩ := serV_head v
    exact ⟨c, cs ++ rest, by rw [hcc, List.cons_append], hg⟩
  | arrNil ws rest hws => exact ⟨'[', _, rfl, by decide⟩
  | arrCons es ws rest t hws he => exact ⟨'[', _, rfl, by decide⟩
  | objCons ms ws rest t hws hm => exact ⟨'\x7b', _, rfl, by decide⟩

theorem ET_head {es : List JVal} {rest t : List Char} (h : ET es rest t) :
    ∃ c t2, t = c :: t2 ∧ goodHead c := by
  cases h with
  | last v ws rest t hws hv => exact VT_head hv
  | cons v vs ws1 ws2 rest t t' h1 h2 hv hes => exact VT_head hv

theorem MT_head {ms : List (String × JVal)} {rest t : List Char} (h : MT ms rest t) :
    ∃ t2, t = '"' :: t2 := by
  cases h with
  | last k v ws1 ws2 ws3 rest tv h1 h2 h3 hv => exact ⟨_, rfl⟩
  | cons k v ms ws1 ws2 ws3 ws4 rest tv t' h1 h2 h3 h4 hv hms => exact ⟨_, rfl⟩

theorem string_mk_data (s : String) : String.mk s.data = s := by
  cases s
  rfl

theorem numSafe_cons (v : JVal) (c : Char) (t2 : List Char) (h : c.isDigit = false) :
    numSafe v (c :: t2) := by
  cases v <;> (try exact trivial)
  exact Or.inr ⟨c, t2, rfl, h⟩

/-- The serializer's text for a nonempty array body is an `ET` rendering. -/
theorem serElems_ET : ∀ (vs : List JVal) (v : JVal) (rest : List Char),
    ET (v :: vs) rest (serV v ++ (serElemsTail vs ++ (']' :: rest))) := by
  intro vs
  induction vs with
  | nil =>
    intro v rest
    have h0 : serElemsTail [] = ([] : List Char) := by rw [serElemsTail]
    rw [h0, List.nil_append]
    refine ET.last v [] rest _ (by decide) ?_
    rw [show ([] : List Char) ++ (']' :: rest) = ']' :: rest from rfl]
    exact VT.exact v (']' :: rest) (numSafe_cons v ']' rest (by decide))
  | cons v2 vs ih =>
    intro v rest
    have h0 : serElemsTail (v2 :: vs) ++ (']' :: rest) =
        ',' :: ' ' :: (serV v2 ++ (serElemsTail vs ++ (']' :: rest))) := by
      rw [serElemsTail]
      rw [List.cons_append, List.cons_append, List.append_assoc]
    rw [h0]
    refine ET.cons v (v2 :: vs) [] [' '] rest _
      (serV v2 ++ (serElemsTail vs ++ (']' :: rest))) (by decide)
      (by decide) ?_ (ih v2 rest)
    rw [show ([] : List Char) ++ (',' :: ([' '] ++
        (serV v2 ++ (serElemsTail vs ++ (']' :: rest))))) =
      ',' :: ' ' :: (serV v2 ++ (serElemsTail vs ++ (']' :: rest))) from rfl]
    exact VT.exact v _ (numSafe_cons v ',' _ (by decide))

/-- The serializer's text for a nonempty object body is an `MT` rendering. -/
theorem serMembers_MT : ∀ (ms : List (String × JVal)) (k : String) (v : JVal)
    (rest : List Char),
    MT ((k, v) :: ms) rest (serMember (k, v) ++ (serMembersTail ms ++ ('\x7d' :: rest))) := by
  intro ms
  induction ms with
  | nil =>
    intro k v rest
    have h0 : serMember (k, v) ++ (serMembersTail [] ++ ('\x7d' :: rest)) =
        '"' :: (escapeList k.data ++ ('"' :: ([] ++ (':' :: ([' '] ++
          (serV v ++ ('\x7d' :: rest))))))) := by
      rw [serMember, serMembersTail, List.nil_append, List.cons_append, List.append_assoc]
      rfl
    rw [h0]
    refine MT.last k v [] [' '] [] rest _ (by decide)
      (by decide)
      (by decide) ?_
    rw [show ([] : List Char) ++ ('\x7d' :: rest) = '\x7d' :: rest from rfl]
    exact VT.exact v _ (numSafe_cons v '\x7d' _ (by decide))
  | cons m2 ms ih =>
    intro k v rest
    obtain ⟨k2, v2⟩ := m2
    have h0 : serMember (k, v) ++ (serMembersTail ((k2, v2) :: ms) ++ ('\x7d' :: rest)) =
        '"' :: (escapeList k.data ++ ('"' :: ([] ++ (':' :: ([' '] ++
          (serV v ++ (',' :: ' ' :: (serMember (k2, v2) ++
            (serMembersTail ms ++ ('\x7d' :: rest)))))))))) := by
      rw [serMember, serMembersTail]
      simp [List.append_assoc]
    rw [h0]
    refine MT.cons k v ((k2, v2) :: ms) [] [' '] [] [' '] rest _
      (serMember (k2, v2) ++ (serMembersTail ms ++ ('\x7d' :: rest)))
      (by decide)
      (by decide)
      (by decide)
      (by decide)
      ?_ (ih k2 v2 rest)
    rw [show ([] : List Char) ++ (',' :: ([' '] ++ (serMember (k2, v2) ++
        (serMembersTail ms ++ ('\x7d' :: rest))))) =
      ',' :: ' ' :: (serMember (k2, v2) ++ (serMembersTail ms ++ ('\x7d' :: rest)))
      from rfl]
    exact VT.exact v _ (numSafe_cons v ',' _ (by decide))

theorem intRepr_head : ∀ n : Int, ∃ c cs, intRepr n = c :: cs ∧
    c ≠ 'n' ∧ c ≠ 't' ∧ c ≠ 'f' ∧ c ≠ '"' ∧ c ≠ '[' ∧ c ≠ '\x7b' ∧
    isWsChar c = false := by
  intro n
  rw [intRepr]
  by_cases hn : n < 0
  · rw [if_pos hn]
    exact ⟨'-', _, rfl, by decide, by decide, by decide, by decide, by decide,
      by decide, by decide⟩
  · rw [if_neg hn]
    obtain ⟨c, cs, hcc, hcd⟩ := natDigits_head n.toNat
    rw [hcc]
    refine ⟨c, cs, rfl, ?_, ?_, ?_, ?_, ?_, ?_, (digit_head_ok c hcd).1⟩
    · intro h; subst h; exact absurd hcd (by decide)
    · intro h; subst h; exact absurd hcd (by decide)
    · intro h; subst h; exact absurd hcd (by decide)
    · intro h; subst h; exact absurd hcd (by decide)
    · intro h; subst h; exact absurd hcd (by decide)
    · intro h; subst h; exact absurd hcd (by decide)

/-- The reader recovers, from any `VT`/`ET`/`MT` rendering, exactly the
rendered value and the trailing text. -/
theorem parse_triple : ∀ fuel : Nat,
    (∀ (v : JVal) (rest t : List Char), VT v rest t → jsize v < fuel →
      parseValue fuel t = some (v, rest)) ∧
    (∀ (es : List JVal) (rest t : List Char), ET es rest t → jsizeL es < fuel →
      parseElems fuel t = some (es, rest)) ∧
    (∀ (ms : List (String × JVal)) (rest t : List Char), MT ms rest t →
      jsizeM ms < fuel → parseMembers fuel t = some (ms, rest)) := by
  intro fuel
  induction fuel with
  | zero =>
    refine ⟨?_, ?_, ?_⟩
    · intro v _ _ _ hsz
      exact absurd hsz (by omega)
    · intro es _ _ _ hsz
      exact absurd hsz (by omega)
    · intro ms _ _ _ hsz
      exact absurd hsz (by omega)
  | succ fuel ih =>
    obtain ⟨ihV, ihE, ihM⟩ := ih
    refine ⟨?_, ?_, ?_⟩
    · intro v rest t hvt hsz
      cases hvt with
      | exact v rest hsafe =>
        cases v with
        | null =>
          rw [show serV JVal.null = ['n', 'u', 'l', 'l'] from by rw [serV]]
          rw [show (['n', 'u', 'l', 'l'] : List Char) ++ rest =
            'n' :: 'u' :: 'l' :: 'l' :: rest from rfl]
          rw [parseValue.eq_def]
          dsimp only []
          rw [skipWs_of_head _ (by decide)]
          rfl
        | bool b =>
          cases b with
          | true =>
            rw [show serV (JVal.bool true) = ['t', 'r', 'u', 'e'] from by rw [serV]]
            rw [show (['t', 'r', 'u', 'e'] : List Char) ++ rest =
              't' :: 'r' :: 'u' :: 'e' :: rest from rfl]
            rw [parseValue.eq_def]
            dsimp only []
            rw [skipWs_of_head _ (by decide)]
            rfl
          | false =>
            rw [show serV (JVal.bool false) = ['f', 'a', 'l', 's', 'e'] from by rw [serV]]
            rw [show (['f', 'a', 'l', 's', 'e'] : List Char) ++ rest =
              'f' :: 'a' :: 'l' :: 's' :: 'e' :: rest from rfl]
            rw [parseValue.eq_def]
            dsimp only []
            rw [skipWs_of_head _ (by decide)]
            rfl
        | num n =>
          rw [show serV (JVal.num n) = intRepr n from by rw [serV]]
          obtain ⟨c, cs, hcc, hn1, hn2, hn3, hn4, hn5, hn6, hn7⟩ := intRepr_head n
          rw [hcc, List.cons_append]
          rw [parseValue.eq_def]
          dsimp only []
          rw [skipWs_of_head _ hn7]
          dsimp only []
          rw [if_neg hn1, if_neg hn2, if_neg hn3, if_neg hn4, if_neg hn5, if_neg hn6]
          rw [← List.cons_append, ← hcc, parseNum_repr n rest hsafe]
          rfl
        | str s =>
          rw [show serV (JVal.str s) = '"' :: (escapeList s.data ++ ['"'])
            from by rw [serV]]
          rw [List.cons_append, List.append_assoc]
          rw [show (['"'] : List Char) ++ rest = '"' :: rest from rfl]
          rw [parseValue.eq_def]
          dsimp only []
          rw [skipWs_of_head _ (by decide)]
          dsimp only []
          rw [if_neg (by decide), if_neg (by decide), if_neg (by decide), if_pos rfl]
          rw [parseStringBody_escape s.data rest]
          simp [Option.map, string_mk_data]
        | arr l =>
          cases l with
          | nil =>
            rw [show serV (JVal.arr []) = ['[', ']'] from by rw [serV]]
            rw [show (['[', ']'] : List Char) ++ rest = '[' :: ']' :: rest from rfl]
            rw [parseValue.eq_def]
            dsimp only []
            rw [skipWs_of_head _ (by decide)]
            dsimp only []
            rw [if_neg (by decide), if_neg (by decide), if_neg (by decide),
              if_neg (by decide), if_pos rfl]
            rw [skipWs_of_head _ (by decide)]
            dsimp only []
            rw [if_pos rfl]
          | cons v vs =>
            rw [show serV (JVal.arr (v :: vs)) =
              '[' :: ((serV v ++ serElemsTail vs) ++ [']']) from by rw [serV]]
            rw [List.cons_append]
            rw [show ((serV v ++ serElemsTail vs) ++ [']']) ++ rest =
              serV v ++ (serElemsTail vs ++ (']' :: rest)) from by
                simp [List.append_assoc]]
            rw [parseValue.eq_def]
            dsimp only []
            rw [skipWs_of_head _ (by decide)]
            dsimp only []
            rw [if_neg (by decide), if_neg (by decide), if_neg (by decide),
              if_neg (by decide), if_pos rfl]
            obtain ⟨c0, cs0, hc0, hg0⟩ := serV_head v
            rw [hc0, List.cons_append, skipWs_of_head _ hg0.1]
            dsimp only []
            rw [if_neg hg0.2.1]
            rw [← List.cons_append, ← hc0]
            have hsz2 : jsizeL (v :: vs) < fuel := by
              rw [jsize] at hsz
              omega
            rw [ihE (v :: vs) rest _ (serElems_ET vs v rest) hsz2]
            rfl
        | obj m =>
          cases m with
          | nil =>
            rw [show serV (JVal.obj []) = ['\x7b', '\x7d'] from by rw [serV]]
            rw [show (['\x7b', '\x7d'] : List Char) ++ rest =
              '\x7b' :: '\x7d' :: rest from rfl]
            rw [parseValue.eq_def]
            dsimp only []
            rw [skipWs_of_head _ (by decide)]
            dsimp only []
            rw [if_neg (by decide), if_neg (by decide), if_neg (by decide),
              if_neg (by decide), if_neg (by decide), if_pos rfl]
            rw [skipWs_of_head _ (by decide)]
            dsimp only []
            rw [if_pos rfl]
          | cons m2 ms =>
            obtain ⟨k, v2⟩ := m2
            rw [show serV (JVal.obj ((k, v2) :: ms)) =
              '\x7b' :: ((serMember (k, v2) ++ serMembersTail ms) ++ ['\x7d'])
              from by rw [serV]]
            rw [List.cons_append]
            rw [show ((serMember (k, v2) ++ serMembersTail ms) ++ ['\x7d']) ++ rest =
              serMember (k, v2) ++ (serMembersTail ms ++ ('\x7d' :: rest)) from by
                simp [List.append_assoc]]
            rw [parseValue.eq_def]
            dsimp only []
            rw [skipWs_of_head _ (by decide)]
            dsimp only []
            rw [if_neg (by decide), if_neg (by decide), if_neg (by decide),
              if_neg (by decide), if_neg (by decide), if_pos rfl]
            have hM := serMembers_MT ms k v2 rest
            obtain ⟨t2, ht2⟩ := MT_head hM
            rw [ht2, skipWs_of_head _ (by decide)]
            dsimp only []
            rw [if_neg (by decide), ← ht2]
            have hsz2 : jsizeM ((k, v2) :: ms) < fuel := by
              rw [jsize] at hsz
              omega
            rw [ihM ((k, v2) :: ms) rest _ hM hsz2]
            rfl
      | arrNil ws rest hws =>
        rw [parseValue.eq_def]
        dsimp only []
        rw [skipWs_of_head _ (by decide)]
        dsimp only []
        rw [if_neg (by decide), if_neg (by decide), if_neg (by decide),
          if_neg (by decide), if_pos rfl]
        rw [skipWs_ws_append ws _ hws, skipWs_of_head _ (by decide)]
        dsimp only []
        rw [if_pos rfl]
      | arrCons es ws rest tE hws he =>
        rw [parseValue.eq_def]
        dsimp only []
        rw [skipWs_of_head _ (by decide)]
        dsimp only []
        rw [if_neg (by decide), if_neg (by decide), if_neg (by decide),
          if_neg (by decide), if_pos rfl]
        rw [skipWs_ws_append ws _ hws]
        obtain ⟨c0, t2, htE, hg⟩ := ET_head he
        rw [htE, skipWs_of_head _ hg.1]
        dsimp only []
        rw [if_neg hg.2.1, ← htE]
        have hsz2 : jsizeL es < fuel := by
          rw [jsize] at hsz
          omega
        rw [ihE es rest tE he hsz2]
        rfl
      | objCons ms ws rest tM hws hm =>
        rw [parseValue.eq_def]
        dsimp only []
        rw [skipWs_of_head _ (by decide)]
        dsimp only []
        rw [if_neg (by decide), if_neg (by decide), if_neg (by decide),
          if_neg (by decide), if_neg (by decide), if_pos rfl]
        rw [skipWs_ws_append ws _ hws]
        obtain ⟨t2, htM⟩ := MT_head hm
        rw [htM, skipWs_of_head _ (by decide)]
        dsimp only []
        rw [if_neg (by decide), ← htM]
        have hsz2 : jsizeM ms < fuel := by
          rw [jsize] at hsz
          omega
        rw [ihM ms rest tM hm hsz2]
        rfl
    · intro es rest t het hsz
      cases het with
      | last v ws rest t hws hv =>
        rw [parseElems.eq_def]
        dsimp only []
        have hszv : jsize v < fuel := by
          have hx : jsizeL [v] = 1 + jsize v := by
            rw [jsizeL, jsizeL]
            omega
          omega
        rw [ihV v (ws ++ (']' :: rest)) t hv hszv]
        dsimp only []
        rw [skipWs_ws_append ws _ hws, skipWs_of_head _ (by decide)]
        dsimp only []
        rw [if_neg (by decide), if_pos rfl]
      | cons v vs ws1 ws2 rest t t' h1 h2 hv hes =>
        rw [parseElems.eq_def]
        dsimp only []
        have hx : jsizeL (v :: vs) = 1 + jsize v + jsizeL vs := by rw [jsizeL]
        have hszv : jsize v < fuel := by omega
        rw [ihV v (ws1 ++ (',' :: (ws2 ++ t'))) t hv hszv]
        dsimp only []
        rw [skipWs_ws_append ws1 _ h1, skipWs_of_head _ (by decide)]
        dsimp only []
        rw [if_pos rfl]
        rw [skipWs_ws_append ws2 _ h2]
        obtain ⟨c0, t2, ht', hg⟩ := ET_head hes
        rw [ht', skipWs_of_head _ hg.1, ← ht']
        have hszvs : jsizeL vs < fuel := by
          have := jsize_pos v
          omega
        rw [ihE vs rest t' hes hszvs]
        rfl
    · intro ms rest t hmt hsz
      cases hmt with
      | last k v0 ws1 ws2 ws3 rest tv h1 h2 h3 hv =>
        rw [parseMembers.eq_def]
        dsimp only []
        rw [if_pos rfl]
        rw [parseStringBody_escape k.data (ws1 ++ (':' :: (ws2 ++ tv)))]
        dsimp only []
        rw [skipWs_ws_append ws1 _ h1, skipWs_of_head _ (by decide)]
        dsimp only []
        rw [if_pos rfl]
        rw [skipWs_ws_append ws2 _ h2]
        obtain ⟨c0, t2, htv, hg⟩ := VT_head hv
        rw [htv, skipWs_of_head _ hg.1, ← htv]
        have hx : jsizeM [(k, v0)] = 1 + jsize v0 := by
          rw [jsizeM, jsizeM]
          simp
        have hszv : jsize v0 < fuel := by omega
        rw [ihV v0 (ws3 ++ ('\x7d' :: rest)) tv hv hszv]
        dsimp only []
        rw [skipWs_ws_append ws3 _ h3, skipWs_of_head _ (by decide)]
        dsimp only []
        rw [if_neg (by decide), if_pos rfl]
      | cons k v0 ms2 ws1 ws2 ws3 ws4 rest tv t' h1 h2 h3 h4 hv hms =>
        rw [parseMembers.eq_def]
        dsimp only []
        rw [if_pos rfl]
        rw [parseStringBody_escape k.data (ws1 ++ (':' :: (ws2 ++ tv)))]
        dsimp only []
        rw [skipWs_ws_append ws1 _ h1, skipWs_of_head _ (by decide)]
        dsimp only []
        rw [if_pos rfl]
        rw [skipWs_ws_append ws2 _ h2]
        obtain ⟨c0, t2, htv, hg⟩ := VT_head hv
        rw [htv, skipWs_of_head _ hg.1, ← htv]
        have hx : jsizeM ((k, v0) :: ms2) = 1 + jsize v0 + jsizeM ms2 := by
          rw [jsizeM]
        have hszv : jsize v0 < fuel := by omega
        rw [ihV v0 (ws3 ++ (',' :: (ws4 ++ t'))) tv hv hszv]
        dsimp only []
        rw [skipWs_ws_append ws3 _ h3, skipWs_of_head _ (by decide)]
        dsimp only []
        rw [if_pos rfl]
        rw [skipWs_ws_append ws4 _ h4]
        obtain ⟨t3, ht'⟩ := MT_head hms
        rw [ht', skipWs_of_head _ (by decide), ← ht']
        have hszm : jsizeM ms2 < fuel := by
          have := jsize_pos v0
          omega
        rw [ihM ms2 rest t' hms hszm]
        rw [string_mk_data]
        rfl

/-! ### Round trip, part 3: the writer's assembled text is such a rendering. -/

/-- The text following the first retained entry inside the written array. -/
def entryTailText (es : List JVal) (restA : List Char) : List Char :=
  match es with
  | [] => '\n' :: ']' :: restA
  | e2 :: es2 => ',' :: '\n' :: ' ' :: ' ' :: (serV e2 ++ entryTailText es2 restA)

theorem entryLines_append : ∀ (es : List JVal) (e : JVal) (restA : List Char),
    entryLines (e :: es) ++ (']' :: restA) =
      ' ' :: ' ' :: (serV e ++ entryTailText es restA) := by
  intro es
  induction es with
  | nil =>
    intro e restA
    rw [entryLines, entryTailText]
    simp [List.append_assoc]
  | cons e2 es2 ih =>
    intro e restA
    rw [entryLines]
    · rw [entryTailText, List.cons_append, List.cons_append, List.append_assoc,
        List.cons_append, List.cons_append, ih e2 restA]
    · intro hcontra
      exact List.noConfusion hcontra

theorem entryLines_ET : ∀ (es : List JVal) (e : JVal) (restA : List Char),
    ET (e :: es) restA (serV e ++ entryTailText es restA) := by
  intro es
  induction es with
  | nil =>
    intro e restA
    rw [entryTailText]
    refine ET.last e ['\n'] restA _
      (by decide) ?_
    rw [show (['\n'] : List Char) ++ (']' :: restA) = '\n' :: ']' :: restA from rfl]
    exact VT.exact e _ (numSafe_cons e '\n' _ (by decide))
  | cons e2 es2 ih =>
    intro e restA
    rw [entryTailText]
    refine ET.cons e (e2 :: es2) [] ['\n', ' ', ' '] restA _
      (serV e2 ++ entryTailText es2 restA)
      (by decide)
      (by decide)
      ?_ (ih e2 restA)
    rw [show ([] : List Char) ++ (',' :: ((['\n', ' ', ' '] : List Char) ++
        (serV e2 ++ entryTailText es2 restA))) =
      ',' :: '\n' :: ' ' :: ' ' :: (serV e2 ++ entryTailText es2 restA) from rfl]
    exact VT.exact e _ (numSafe_cons e ',' _ (by decide))

/-- Text of the written array value `[` newline, entry lines, `]` newline
brace. -/
def arrValText (uniq : List JVal) : List Char :=
  '[' :: '\n' :: (entryLines uniq ++ (']' :: '\n' :: '\x7d' :: []))

/-- Text of the written `"entries": [...]` member (with the closing brace). -/
def entriesMemberText (uniq : List JVal) : List Char :=
  '"' :: ("entries".data ++ ('"' :: ':' :: ' ' :: arrValText uniq))

theorem entries_member_MT (uniq : List JVal) :
    MT [("entries", JVal.arr uniq)] [] (entriesMemberText uniq) := by
  have hesc : escapeList "entries".data = "entries".data := by decide
  have harr : VT (JVal.arr uniq) (['\n'] ++ ('\x7d' :: [])) (arrValText uniq) := by
    cases uniq with
    | nil =>
      rw [arrValText, entryLines, List.nil_append]
      exact VT.arrNil ['\n'] (['\n'] ++ ('\x7d' :: [])) (by decide)
    | cons e es =>
      rw [arrValText]
      rw [show (']' :: '\n' :: '\x7d' :: [] : List Char) =
        ']' :: (['\n', '\x7d'] : List Char) from rfl]
      rw [entryLines_append es e ['\n', '\x7d']]
      rw [show ('[' :: '\n' :: (' ' :: ' ' :: (serV e ++ entryTailText es ['\n', '\x7d'])) :
          List Char) =
        '[' :: ((['\n', ' ', ' '] : List Char) ++ (serV e ++ entryTailText es ['\n', '\x7d']))
        from rfl]
      exact VT.arrCons (e :: es) ['\n', ' ', ' '] ['\n', '\x7d'] _
        (by decide)
        (entryLines_ET es e ['\n', '\x7d'])
  have := MT.last "entries" (JVal.arr uniq) [] [' '] ['\n'] [] (arrValText uniq)
    (by decide)
    (by decide)
    (by decide)
    harr
  rw [entriesMemberText, ← hesc]
  rw [show ('"' :: (escapeList "entries".data ++ ('"' :: ':' :: ' ' :: arrValText uniq)) :
      List Char) =
    '"' :: (escapeList "entries".data ++ ('"' :: (([] : List Char) ++ (':' ::
      ((' ' :: []) ++ arrValText uniq))))) from by simp]
  exact this

/-- Prepending serializer-formatted members (the dumped header) to an `MT`
rendering, with the writer's `,` and newline at the junction. -/
theorem serMembers_prepend_MT : ∀ (hs : List (String × JVal)) (k0 : String) (v0 : JVal)
    (msT : List (String × JVal)) (t' : List Char), MT msT [] t' →
    MT (((k0, v0) :: hs) ++ msT) []
      (serMember (k0, v0) ++ (serMembersTail hs ++ (',' :: '\n' :: t'))) := by
  intro hs
  induction hs with
  | nil =>
    intro k0 v0 msT t' hT
    have h0 : serMember (k0, v0) ++ (serMembersTail [] ++ (',' :: '\n' :: t')) =
        '"' :: (escapeList k0.data ++ ('"' :: (([] : List Char) ++ (':' ::
          ((' ' :: []) ++ (serV v0 ++ (([] : List Char) ++ (',' ::
            ((('\n' :: []) : List Char) ++ t'))))))))) := by
      rw [serMember, serMembersTail]
      simp [List.append_assoc]
    rw [h0]
    refine MT.cons k0 v0 msT [] [' '] [] ['\n'] [] _ t'
      (by decide)
      (by decide)
      (by decide)
      (by decide)
      ?_ hT
    exact VT.exact v0 _ (numSafe_cons v0 ',' _ (by decide))
  | cons h2 hs ih =>
    intro k0 v0 msT t' hT
    obtain ⟨k2, v2⟩ := h2
    have h0 : serMember (k0, v0) ++ (serMembersTail ((k2, v2) :: hs) ++
        (',' :: '\n' :: t')) =
        '"' :: (escapeList k0.data ++ ('"' :: (([] : List Char) ++ (':' ::
          ((' ' :: []) ++ (serV v0 ++ (([] : List Char) ++ (',' ::
            (((' ' :: []) : List Char) ++ (serMember (k2, v2) ++
              (serMembersTail hs ++ (',' :: '\n' :: t')))))))))))) := by
      rw [serMember, serMembersTail]
      simp [List.append_assoc]
    rw [h0]
    refine MT.cons k0 v0 ((k2, v2) :: hs ++ msT) [] [' '] [] [' '] [] _
      (serMember (k2, v2) ++ (serMembersTail hs ++ (',' :: '\n' :: t')))
      (by decide)
      (by decide)
      (by decide)
      (by decide)
      ?_ (ih k2 v2 msT t' hT)
    exact VT.exact v0 _ (numSafe_cons v0 ',' _ (by decide))

theorem olookup_append (k : String) : ∀ (a b : List (String × JVal)),
    olookup k (a ++ b) =
      match olookup k a with
      | some v => some v
      | none => olookup k b := by
  intro a b
  induction a with
  | nil => rw [List.nil_append]; rfl
  | cons kv rest ih =>
    obtain ⟨k', v'⟩ := kv
    rw [List.cons_append, olookup, olookup]
    by_cases hk : k' = k
    · rw [if_pos hk, if_pos hk]
    · rw [if_neg hk, if_neg hk, ih]

theorem olookup_headerOf_entries : ∀ d : List (String × JVal),
    olookup "entries" (headerOf d) = none := by
  intro d
  induction d with
  | nil => rfl
  | cons kv rest ih =>
    obtain ⟨k', v'⟩ := kv
    rw [headerOf, List.filter_cons]
    by_cases hk : k' = "entries"
    · subst hk
      rw [show (!("entries" == "entries")) = false from by decide]
      simp only [Bool.false_eq_true, if_false]
      rw [headerOf] at ih
      exact ih
    · have hb : (!(k' == "entries")) = true := by simp [hk]
      rw [hb]
      simp only [if_true]
      rw [olookup, if_neg hk]
      rw [headerOf] at ih
      exact ih

theorem olookup_headerOf_ne : ∀ (d : List (String × JVal)) (k : String),
    k ≠ "entries" → olookup k (headerOf d) = olookup k d := by
  intro d
  induction d with
  | nil => intro k _; rfl
  | cons kv rest ih =>
    intro k hk
    obtain ⟨k', v'⟩ := kv
    rw [headerOf, List.filter_cons]
    by_cases hke : k' = "entries"
    · subst hke
      rw [show (!("entries" == "entries")) = false from by decide]
      simp only [Bool.false_eq_true, if_false]
      rw [olookup, if_neg (fun h => hk h.symm)]
      rw [headerOf] at ih
      exact ih k hk
    · have hb : (!(k' == "entries")) = true := by simp [hke]
      rw [hb]
      simp only [if_true]
      rw [olookup, olookup]
      by_cases hkk : k' = k
      · rw [if_pos hkk, if_pos hkk]
      · rw [if_neg hkk, if_neg hkk]
        rw [headerOf] at ih
        exact ih k hk

/-- The writer's whole output text, for a document with a nonempty header, in
the shape of an object rendering. -/
theorem writtenText_shape (newVoc : List (String × JVal)) (uniq : List JVal)
    (k0 : String) (v0 : JVal) (hs : List (String × JVal))
    (hh : headerOf newVoc = (k0, v0) :: hs) :
    writtenText newVoc uniq =
      '\x7b' :: (serMember (k0, v0) ++
        (serMembersTail hs ++ (',' :: '\n' :: entriesMemberText uniq))) := by
  rw [writtenText, hh]
  rw [show serV (JVal.obj ((k0, v0) :: hs)) =
    '\x7b' :: ((serMember (k0, v0) ++ serMembersTail hs) ++ ['\x7d'])
    from by rw [serV]]
  rw [show ('\x7b' :: ((serMember (k0, v0) ++ serMembersTail hs) ++ ['\x7d']) :
      List Char) =
    ('\x7b' :: (serMember (k0, v0) ++ serMembersTail hs)) ++ ['\x7d']
    from by rw [List.cons_append]]
  rw [List.dropLast_concat]
  rw [entriesMemberText, arrValText]
  simp [List.append_assoc]

/-- C7 (amended): for every well-formed input document with at least one key
besides `"entries"`, the text the script writes is valid JSON and a standard
reader parses it back to exactly the new document — the non-entries metadata
followed by the deduplicated entries, key for key the same mapping as the new
document — with non-ASCII characters preserved literally by the serializer.
(Without such a key the written text is not JSON: see the counterexample.) -/
theorem written_output_parses (voc : List (String × JVal)) (entries uniq : List JVal)
    (dups : List String)
    (hv : olookup "entries" voc = some (.arr entries))
    (_hwf : ∀ e ∈ entries, entryOk e = true)
    (h : dedupCore entries = .ok (uniq, dups))
    (hheader : headerOf voc ≠ []) :
    (check_duplicates true (.ok (.obj voc))).outputWritten =
      some (writtenText (newVocabulary voc uniq) uniq) ∧
    jsonLoads (writtenText (newVocabulary voc uniq) uniq) =
      some (.obj (headerOf voc ++ [("entries", JVal.arr uniq)])) ∧
    (∀ k : String, olookup k (headerOf voc ++ [("entries", JVal.arr uniq)]) =
      olookup k (newVocabulary voc uniq)) ∧
    (∀ c : Char, 32 ≤ c.toNat → c ≠ '"' → c ≠ '\\' → escapeChar c = [c]) := by
  have hscript : (check_duplicates true (.ok (.obj voc))).outputWritten =
      some (writtenText (newVocabulary voc uniq) uniq) := by
    simp [check_duplicates, entriesIter, hv, h]
  have hhd : headerOf (newVocabulary voc uniq) = headerOf voc :=
    headerOf_dictSet (.arr uniq) voc
  refine ⟨hscript, ?_, ?_, ?_⟩
  · cases hH : headerOf voc with
    | nil => exact absurd hH hheader
    | cons h0 hs =>
      obtain ⟨k0, v0⟩ := h0
      have hshape := writtenText_shape (newVocabulary voc uniq) uniq k0 v0 hs
        (by rw [hhd, hH])
      have hMT := serMembers_prepend_MT hs k0 v0 [("entries", JVal.arr uniq)]
        (entriesMemberText uniq) (entries_member_MT uniq)
      have hVT : VT (.obj (((k0, v0) :: hs) ++ [("entries", JVal.arr uniq)])) []
          (writtenText (newVocabulary voc uniq) uniq) := by
        rw [hshape]
        exact VT.objCons _ [] [] _ (by decide) hMT
      have hb1 := jsize_le_serMember (k0, v0)
      have hb2 := jsizeM_le_tail hs
      have hb3 := jsizeL_le_entryLines uniq
      have hs1 : jsizeM (((k0, v0) :: hs) ++ [("entries", JVal.arr uniq)]) =
          1 + jsize v0 + jsizeM hs + 1 + (1 + jsizeL uniq) := by
        rw [jsizeM_append, jsizeM, jsizeM, jsizeM, jsize]
        simp
        omega
      have hsz : jsize (.obj (((k0, v0) :: hs) ++ [("entries", JVal.arr uniq)])) <
          (writtenText (newVocabulary voc uniq) uniq).length + 1 := by
        rw [jsize, hs1, hshape]
        simp only [List.length_cons, List.length_append, List.length_nil,
          entriesMemberText, arrValText]
        have hb1a : 1 + jsize v0 ≤ (serMember (k0, v0)).length := hb1
        omega
      have hparse := (parse_triple
          ((writtenText (newVocabulary voc uniq) uniq).length + 1)).1
        _ [] _ hVT hsz
      rw [jsonLoads, hparse]
      rfl
  · intro k
    by_cases hk : k = "entries"
    · subst hk
      rw [olookup_append, olookup_headerOf_entries voc, newVocabulary,
        olookup_dictSet_self voc "entries" (.arr uniq)]
      rfl
    · rw [olookup_append, olookup_headerOf_ne voc k hk, newVocabulary,
        olookup_dictSet_ne voc "entries" k (.arr uniq) hk]
      cases holk : olookup k voc with
      | some w => rfl
      | none =>
        dsimp only []
        rw [olookup, if_neg (fun hcontra => hk hcontra.symm)]
        rfl
  · intro c h32 hq hbs
    have hn : c ≠ '\n' := by
      intro hc; subst hc; exact absurd h32 (by decide)
    have ht : c ≠ '\t' := by
      intro hc; subst hc; exact absurd h32 (by decide)
    have hr : c ≠ '\x0d' := by
      intro hc; subst hc; exact absurd h32 (by decide)
    have hb : c ≠ '\x08' := by
      intro hc; subst hc; exact absurd h32 (by decide)
    have hf : c ≠ '\x0C' := by
      intro hc; subst hc; exact absurd h32 (by decide)
    have h32n : ¬ (c.toNat < 32) := by omega
    rw [escapeChar, if_neg hq, if_neg hbs, if_neg hn, if_neg ht, if_neg hr,
      if_neg hb, if_neg hf, if_neg h32n]

theorem written_output_parses_witness :
    (olookup "entries" demoVoc = some (.arr demoEntries)) ∧
    (∀ e ∈ demoEntries, entryOk e = true) ∧
    (headerOf demoVoc ≠ []) ∧
    ((check_duplicates true (.ok (.obj demoVoc))).outputWritten =
        some (writtenText (newVocabulary demoVoc demoUniq) demoUniq) ∧
      jsonLoads (writtenText (newVocabulary demoVoc demoUniq) demoUniq) =
        some (.obj (headerOf demoVoc ++ [("entries", JVal.arr demoUniq)])) ∧
      (∀ k : String, olookup k (headerOf demoVoc ++ [("entries", JVal.arr demoUniq)]) =
        olookup k (newVocabulary demoVoc demoUniq)) ∧
      (∀ c : Char, 32 ≤ c.toNat → c ≠ '"' → c ≠ '\\' → escapeChar c = [c])) :=
  ⟨rfl, by decide, fun hcontra => List.noConfusion hcontra,
    written_output_parses demoVoc demoEntries demoUniq demoDups rfl (by decide) rfl
      (fun hcontra => List.noConfusion hcontra)⟩

end CheckDup
